import Mathlib

/-!
# Message-queue character device (`charDeviceDriver.c`)

A shallow embedding of the driver's queue (`pop`, `push`, `init`) and of its
file operations (`device_read`, `device_write`, `device_ioctl`), followed by
the properties proved about them.

Modelling conventions.

* Kernel memory holding `struct node` objects is a partial map from addresses
  to nodes; `NULL` is `none`.  `kmalloc` is an input of the call that performs
  it (the address handed out, or `none` for `NULL`), `kfree` unmaps the address.
* Dereferencing `NULL` or an unmapped address is undefined behaviour; the
  functions then return `none`.
* A payload buffer is written once (by `copy_from_user`) and never changed or
  freed afterwards, so `char *data` is embedded by the bytes it points to.
* `size_t` / `unsigned long` values are natural numbers and the `ssize_t`
  counter `qSize` is an integer.  Sizes count bytes of buffers resident in
  kernel memory and stay far below `2^63`, so the C arithmetic is exact and no
  wrap-around is modelled.
* The functions below run a call to completion (single thread), where `devLock`
  has no effect.  Concurrent writers are modelled separately (`Writer`,
  `schedule`): a writer can be preempted between the statements that precede
  `push`, which run without `devLock`, and the call of `push`.
* `maxSize` and `maxMsgSize` are declared in `charDeviceDriver.h`; they are
  fields of the state, taken to be unsigned and as wide as `ioctl_param`, and
  their initial values are parameters.
* Comparisons that involve `qSize` are the mathematical ones; they coincide with
  the C comparisons (made after conversion to an unsigned type) whenever
  `qSize` is not negative.
-/

namespace CharDev

/-- Address of a kernel object (a non-`NULL` pointer value). -/
abbrev Addr := Nat

/-- One `char`. -/
abbrev Byte := Nat

/-- The C type `struct node`. -/
structure node where
  data : List Byte
  size : Nat
  next : Option Addr
deriving DecidableEq, Repr

/-- The C type `struct queue`. -/
structure queue where
  head : Option Addr
  tail : Option Addr
deriving DecidableEq, Repr

/-- Globals of the module: node memory, the queue object `*q`, `qSize`, and the
two limits `maxSize` and `maxMsgSize`. -/
structure Kernel where
  heap : Addr → Option node
  q : queue
  qSize : Int
  maxSize : Nat
  maxMsgSize : Nat

/-- Linux errno values used by the driver. -/
def EAGAIN : Int := 11

/-- Linux errno value `EFAULT`. -/
def EFAULT : Int := 14

/-- Linux errno value `EINVAL`. -/
def EINVAL : Int := 22

/-- Kernel helper `copy_from_user(to, from, n)`: the number of bytes that could
not be copied.  `src` lists the readable bytes starting at `from`. -/
def copy_from_user (src : List Byte) (n : Nat) : Nat :=
  n - src.length

/-- Kernel helper `copy_to_user(to, from, n)`: the number of bytes that could not
be copied, and the bytes stored at `to`.  `room` is the number of writable
bytes starting at `to`. -/
def copy_to_user (room : Nat) (src : List Byte) (n : Nat) : Nat × List Byte :=
  (n - room, src.take (min n room))

/-- The C function `pop(q, &data, &size)`: return value, what was stored through
`data` and `size` (if anything), and the new globals. -/
def pop (k : Kernel) : Option (Int × Option (List Byte × Nat) × Kernel) :=
  match k.q.head with
  | some a =>
    match k.heap a with
    | none => none
    | some currentNode =>
      some (0, some (currentNode.data, currentNode.size),
        { k with
          q := { k.q with head := currentNode.next }
          qSize := k.qSize - currentNode.size
          heap := Function.update k.heap a none })
  | none => some (-1, none, k)

/-- The C function `push(q, data, len)`; `newNode` is what `kmalloc` returned. -/
def push (k : Kernel) (newNode : Option Addr) (data : List Byte) (len : Nat) :
    Option (Int × Kernel) :=
  match newNode with
  | none => some (-1, k)
  | some n =>
    let heap1 := Function.update k.heap n (some { data := data, size := len, next := none })
    match k.q.head with
    | none =>
      some (0, { k with
        heap := heap1
        q := { head := some n, tail := some n }
        qSize := k.qSize + len })
    | some _ =>
      match k.q.tail with
      | none => none
      | some t =>
        match heap1 t with
        | none => none
        | some tl =>
          some (0, { k with
            heap := Function.update heap1 t (some { tl with next := some n })
            q := { k.q with tail := some n }
            qSize := k.qSize + len })

/-- The C function `init(q)`. -/
def init (k : Kernel) : Kernel :=
  { k with q := { head := none, tail := none } }

/-- The C function `device_ioctl(file, ioctl_num, ioctl_param)`. -/
def device_ioctl (k : Kernel) (ioctl_num ioctl_param : Nat) : Int × Kernel :=
  if ioctl_num = 0 then
    if ioctl_param > k.maxSize ∨ (ioctl_param : Int) > k.qSize then
      (0, { k with maxSize := ioctl_param })
    else (-EINVAL, k)
  else (-EINVAL, k)

/-- The C function `device_read(filp, buffer, length, offset)`: return value, the
bytes stored in the caller's buffer, and the new globals.  `room` is the number
of writable bytes at `buffer`. -/
def device_read (k : Kernel) (length room : Nat) : Option (Int × List Byte × Kernel) :=
  match pop k with
  | none => none
  | some (r, out, k1) =>
    if r = -1 then some (-EAGAIN, [], k1)
    else
      match out with
      | none => none
      | some (msg, size) =>
        if size < length then
          if (copy_to_user room msg size).1 ≠ 0 then
            some (-EFAULT, (copy_to_user room msg size).2, k1)
          else some (size, (copy_to_user room msg size).2, k1)
        else
          if (copy_to_user room msg length).1 ≠ 0 then
            some (-EFAULT, (copy_to_user room msg length).2, k1)
          else some (length, (copy_to_user room msg length).2, k1)

/-- The C function `device_write(filp, buff, len, off)`.  `buff` lists the
readable bytes at the caller's pointer, `msgAlloc` tells whether `kmalloc(len)`
succeeded and `newNode` is what the `kmalloc` inside `push` returns. -/
def device_write (k : Kernel) (buff : List Byte) (len : Nat) (msgAlloc : Bool)
    (newNode : Option Addr) : Option (Int × Kernel) :=
  if msgAlloc = false then some (-1, k)
  else if len > k.maxMsgSize then some (-EINVAL, k)
  else if k.qSize + len > k.maxSize then some (-EAGAIN, k)
  else if copy_from_user buff len ≠ 0 then some (-EFAULT, k)
  else
    match push k newNode (buff.take len) len with
    | none => none
    | some (r, k1) => if r = -1 then some (-EFAULT, k1) else some (len, k1)

/-- Globals right after `init_module` succeeded: no node allocated, `init(q)`
done, `qSize = 0`, and the header's defaults for the two limits. -/
def initial (maxSize0 maxMsgSize0 : Nat) : Kernel :=
  init { heap := fun _ => none, q := { head := none, tail := none }, qSize := 0,
         maxSize := maxSize0, maxMsgSize := maxMsgSize0 }

/-- One enqueued message as seen by a reader: payload bytes and recorded size. -/
structure Msg where
  data : List Byte
  size : Nat
deriving DecidableEq, Repr

/-- Following `next` from pointer `p` visits exactly the nodes at the listed
addresses, carrying the listed messages, and then reaches `NULL`. -/
def Chain (heap : Addr → Option node) : Option Addr → List (Addr × Msg) → Prop
  | p, [] => p = none
  | p, c :: rest =>
    p = some c.1 ∧
      ∃ nd, heap c.1 = some nd ∧ nd.data = c.2.data ∧ nd.size = c.2.size ∧
        Chain heap nd.next rest

/-- Shape of the queue object: the nodes linked from `head` are `cells`, and
when there is at least one, `tail` points to the last of them. -/
def IsQueue (k : Kernel) (cells : List (Addr × Msg)) : Prop :=
  Chain k.heap k.q.head cells ∧ ∀ c ∈ cells.getLast?, k.q.tail = some c.1

/-- Sum of the size fields of the listed nodes. -/
def totalSize (cells : List (Addr × Msg)) : Int :=
  (cells.map fun c => (c.2.size : Int)).sum

/-- Executable check of `Chain`. -/
def isChain (heap : Addr → Option node) : Option Addr → List (Addr × Msg) → Bool
  | p, [] => p.isNone
  | p, c :: rest =>
    match heap c.1 with
    | none => false
    | some nd =>
      decide (p = some c.1) && decide (nd.data = c.2.data) && decide (nd.size = c.2.size) &&
        isChain heap nd.next rest

/-- One call into the driver together with what its collaborators do during the
call (see `device_write`, `device_read`, `device_ioctl` for the arguments). -/
inductive Call where
  | write (buff : List Byte) (len : Nat) (msgAlloc : Bool) (newNode : Option Addr)
  | read (length room : Nat)
  | ioctl (ioctl_num ioctl_param : Nat)
deriving DecidableEq, Repr

/-- Return value and new globals of one call. -/
def step (k : Kernel) : Call → Option (Int × Kernel)
  | .write buff len msgAlloc newNode => device_write k buff len msgAlloc newNode
  | .read length room => (device_read k length room).map fun r => (r.1, r.2.2)
  | .ioctl ioctl_num ioctl_param => some (device_ioctl k ioctl_num ioctl_param)

/-- The allocator never hands out an address that is still allocated. -/
def allocFresh (k : Kernel) : Call → Prop
  | .write _ _ _ (some n) => k.heap n = none
  | _ => True

/-- States the module can be in after `init_module` and any sequence of calls
made one after the other. -/
inductive Reachable (maxSize0 maxMsgSize0 : Nat) : Kernel → Prop
  | start : Reachable maxSize0 maxMsgSize0 (initial maxSize0 maxMsgSize0)
  | call (k : Kernel) (c : Call) (r : Int) (k1 : Kernel) :
      Reachable maxSize0 maxMsgSize0 k → allocFresh k c → step k c = some (r, k1) →
      Reachable maxSize0 maxMsgSize0 k1

instance instDecidableChain (heap : Addr → Option node) (p : Option Addr)
    (cells : List (Addr × Msg)) : Decidable (Chain heap p cells) :=
  decidable_of_iff (isChain heap p cells = true) (by
    induction cells generalizing p with
    | nil => simp [isChain, Chain]
    | cons c rest ih =>
      unfold isChain Chain
      cases h : heap c.1 with
      | none => simp
      | some nd => simp [ih, and_assoc])

instance instDecidableIsQueue (k : Kernel) (cells : List (Addr × Msg)) :
    Decidable (IsQueue k cells) := by
  unfold IsQueue; infer_instance

/-- Every write of the list, made in order starting from `k`, returned its own
`len` (it was accepted) and left the globals `k1` in the end; the allocator
only handed out unused addresses. -/
inductive Writes : Kernel → List (List Byte × Nat) → Kernel → Prop
  | done (k : Kernel) : Writes k [] k
  | next (k : Kernel) (buff : List Byte) (len : Nat) (msgAlloc : Bool) (newNode : Option Addr)
      (k1 k2 : Kernel) (ws : List (List Byte × Nat)) :
      allocFresh k (.write buff len msgAlloc newNode) →
      device_write k buff len msgAlloc newNode = some ((len : Int), k1) →
      Writes k1 ws k2 → Writes k ((buff, len) :: ws) k2

/-- A sequence of `device_read` calls, each given as `(length, room)`: the
return value and delivered bytes of each call, and the final globals. -/
def reads (k : Kernel) : List (Nat × Nat) → Option (List (Int × List Byte) × Kernel)
  | [] => some ([], k)
  | r :: rs =>
    match device_read k r.1 r.2 with
    | none => none
    | some (ret, bytes, k1) =>
      match reads k1 rs with
      | none => none
      | some (outs, k2) => some ((ret, bytes) :: outs, k2)

/-- What the driver maintains between calls: the queue is well shaped with
nodes `cells`, every payload buffer is as long as the recorded size, `qSize` is
the sum of the recorded sizes, and it does not exceed `maxSize`. -/
def Inv (k : Kernel) (cells : List (Addr × Msg)) : Prop :=
  IsQueue k cells ∧ (∀ c ∈ cells, c.2.data.length = c.2.size) ∧
    k.qSize = totalSize cells ∧ k.qSize ≤ k.maxSize

/-- The bytes of the string "hello". -/
def hello : List Byte := [104, 101, 108, 108, 111]

/-- Globals after module start with `maxSize = 100` and `maxMsgSize = 10`, and
then one accepted write of "hello" whose node was allocated at address `1`. -/
def afterHello : Kernel :=
  { heap := Function.update (fun _ => none) 1 (some { data := hello, size := 5, next := none })
    q := { head := some 1, tail := some 1 }
    qSize := 5
    maxSize := 100
    maxMsgSize := 10 }

/-- Globals after "hello" has been read out of `afterHello`: the queue is empty,
the node at address `1` is freed and `tail` still holds its address. -/
def drained : Kernel :=
  { heap := Function.update afterHello.heap 1 none
    q := { head := none, tail := some 1 }
    qSize := 0
    maxSize := 100
    maxMsgSize := 10 }

/-- Globals after a second accepted write, of the bytes `1, 2, 3`, made on
`afterHello`, with the node allocated at address `2`. -/
def afterTwo : Kernel :=
  { heap := Function.update
      (Function.update afterHello.heap 2 (some { data := [1, 2, 3], size := 3, next := none }))
      1 (some { data := hello, size := 5, next := some 2 })
    q := { head := some 1, tail := some 2 }
    qSize := 8
    maxSize := 100
    maxMsgSize := 10 }

/-- Sixty zero bytes. -/
def sixty : List Byte := List.replicate 60 0

/-- Globals after module start with `maxSize = 100` and `maxMsgSize = 64`, and
then one accepted write of sixty bytes whose node was allocated at address `1`. -/
def afterSixty : Kernel :=
  { heap := Function.update (fun _ => none) 1 (some { data := sixty, size := 60, next := none })
    q := { head := some 1, tail := some 1 }
    qSize := 60
    maxSize := 100
    maxMsgSize := 64 }

/-- One call of the queue interface: `push` (with what its `kmalloc` returns, the
data and the length) or `pop`. -/
inductive QOp where
  | push (newNode : Option Addr) (data : List Byte) (len : Nat)
  | pop
deriving DecidableEq, Repr

/-- What a queue call hands back: the return value and, for a successful `pop`,
what it stored through `data` and `size`. -/
abbrev QOut := Int × Option (List Byte × Nat)

/-- One queue call on the globals. -/
def qstep (k : Kernel) : QOp → Option (QOut × Kernel)
  | .push newNode data len => (push k newNode data len).map fun r => ((r.1, none), r.2)
  | .pop => (pop k).map fun r => ((r.1, r.2.1), r.2.2)

/-- A sequence of queue calls made one after the other: what each handed back,
and the final globals. -/
def qrun (k : Kernel) : List QOp → Option (List QOut × Kernel)
  | [] => some ([], k)
  | op :: ops =>
    match qstep k op with
    | none => none
    | some (out, k1) =>
      match qrun k1 ops with
      | none => none
      | some (outs, k2) => some (out :: outs, k2)

/-- Along the sequence of queue calls, every address handed out by the
allocator is unused at the moment of the call. -/
def freshRun (k : Kernel) : List QOp → Prop
  | [] => True
  | op :: ops =>
    (match op with
      | .push (some n) _ _ => k.heap n = none
      | _ => True) ∧
    match qstep k op with
    | none => True
    | some (_, k1) => freshRun k1 ops

/-- Abstract FIFO list, one call: `push` appends the message unless the node
allocation failed (then it returns `-1`), `pop` removes and returns the oldest
message, or returns `-1` when there is none. -/
def fifoStep (ms : List Msg) : QOp → QOut × List Msg
  | .push none _ _ => ((-1, none), ms)
  | .push (some _) data len => ((0, none), ms ++ [{ data := data, size := len }])
  | .pop =>
    match ms with
    | [] => ((-1, none), [])
    | m :: rest => ((0, some (m.data, m.size)), rest)

/-- Abstract FIFO list, a sequence of calls. -/
def fifoRun (ms : List Msg) : List QOp → List QOut × List Msg
  | [] => ([], ms)
  | op :: ops =>
    ((fifoStep ms op).1 :: (fifoRun (fifoStep ms op).2 ops).1,
      (fifoRun (fifoStep ms op).2 ops).2)

/-- Where one `device_write` call stands.  `entered`: called, nothing executed
yet.  `checked`: the statements before `push` are done (payload allocated, both
limits tested, bytes copied in), the call of `push` is next.  `returned`: the
call has returned the given value. -/
inductive Writer where
  | entered (buff : List Byte) (len : Nat) (msgAlloc : Bool) (newNode : Option Addr)
  | checked (msg : List Byte) (len : Nat) (newNode : Option Addr)
  | returned (ret : Int)
deriving DecidableEq, Repr

/-- The statements of `device_write` that precede the call of `push`; none of
them is executed under `devLock`.  Either the value returned early, or the
payload buffer to push. -/
def write_checks (k : Kernel) (buff : List Byte) (len : Nat) (msgAlloc : Bool) :
    Except Int (List Byte) :=
  if msgAlloc = false then .error (-1)
  else if len > k.maxMsgSize then .error (-EINVAL)
  else if k.qSize + len > k.maxSize then .error (-EAGAIN)
  else if copy_from_user buff len ≠ 0 then .error (-EFAULT)
  else .ok (buff.take len)

/-- One scheduling step of a writer: either the statements before `push`, or the
call of `push` (whose body holds `devLock`) and the return. -/
def Writer.step (k : Kernel) : Writer → Option (Writer × Kernel)
  | .entered buff len msgAlloc newNode =>
    match write_checks k buff len msgAlloc with
    | .error r => some (.returned r, k)
    | .ok msg => some (.checked msg len newNode, k)
  | .checked msg len newNode =>
    match push k newNode msg len with
    | none => none
    | some (r, k1) => some (.returned (if r = -1 then -EFAULT else len), k1)
  | .returned ret => some (.returned ret, k)

/-- Concurrent writers under a schedule: each entry of `sched` names the writer
that runs its next step. -/
def schedule (k : Kernel) (ws : List Writer) : List Nat → Option (List Writer × Kernel)
  | [] => some (ws, k)
  | i :: sched =>
    match ws.get? i with
    | none => schedule k ws sched
    | some w =>
      match Writer.step k w with
      | none => none
      | some (w1, k1) => schedule k1 (ws.set i w1) sched

/-- Thirty zero bytes. -/
def thirty : List Byte := List.replicate 30 0

/-- Globals after module start with `maxSize = 100` and `maxMsgSize = 10`, and
then one accepted write of zero bytes whose node was allocated at address `1`. -/
def afterEmptyMsg : Kernel :=
  { heap := Function.update (fun _ => none) 1 (some { data := [], size := 0, next := none })
    q := { head := some 1, tail := some 1 }
    qSize := 0
    maxSize := 100
    maxMsgSize := 10 }

/-! ## Facts about linked chains -/

/-- Every listed address is mapped. -/
theorem Chain.live {heap : Addr → Option node} {p : Option Addr} {cells : List (Addr × Msg)}
    (h : Chain heap p cells) {c : Addr × Msg} (hc : c ∈ cells) : heap c.1 ≠ none := by
  induction cells generalizing p with
  | nil => simp at hc
  | cons c0 rest ih =>
    obtain ⟨-, nd, hnd, -, -, hrest⟩ := h
    rcases List.mem_cons.1 hc with rfl | hc
    · simp [hnd]
    · exact ih hrest hc

/-- The chain starting at a pointer is determined by the memory. -/
theorem Chain.unique {heap : Addr → Option node} {p : Option Addr}
    {cs cs1 : List (Addr × Msg)} (h : Chain heap p cs) (h1 : Chain heap p cs1) : cs = cs1 := by
  induction cs generalizing p cs1 with
  | nil =>
    cases cs1 with
    | nil => rfl
    | cons c1 r1 =>
      have hp : p = none := h
      obtain ⟨hp1, -⟩ := h1
      simp [hp] at hp1
  | cons c r ih =>
    obtain ⟨hp, nd, hnd, hd, hs, hr⟩ := h
    cases cs1 with
    | nil =>
      have hp1 : p = none := h1
      simp [hp1] at hp
    | cons c1 r1 =>
      obtain ⟨hp1, nd1, hnd1, hd1, hs1, hr1⟩ := h1
      have ha : c.1 = c1.1 := by
        rw [hp] at hp1; exact Option.some.inj hp1
      rw [← ha, hnd] at hnd1
      cases Option.some.inj hnd1
      have hm : c.2 = c1.2 := by
        cases hc : c.2; cases hc1 : c1.2
        simp_all
      have hcc : c = c1 := Prod.ext ha hm
      rw [hcc, ih hr hr1]

/-- A later part of a chain is the chain from its own first address. -/
theorem Chain.suffix {heap : Addr → Option node} {p : Option Addr}
    {l1 l2 : List (Addr × Msg)} {c : Addr × Msg}
    (h : Chain heap p (l1 ++ c :: l2)) : Chain heap (some c.1) (c :: l2) := by
  induction l1 generalizing p with
  | nil =>
    obtain ⟨-, hrest⟩ := h
    exact ⟨rfl, hrest⟩
  | cons c0 r ih =>
    obtain ⟨-, nd, -, -, -, hr⟩ := h
    exact ih hr

/-- No address occurs twice on a chain that ends at `NULL`. -/
theorem Chain.nodup {heap : Addr → Option node} {p : Option Addr} {cells : List (Addr × Msg)}
    (h : Chain heap p cells) : (cells.map Prod.fst).Nodup := by
  induction cells generalizing p with
  | nil => simp
  | cons c rest ih =>
    have hall := h
    obtain ⟨hp, nd, hnd, hd, hs, hr⟩ := h
    rw [List.map_cons, List.nodup_cons]
    refine ⟨?_, ih hr⟩
    intro hmem
    obtain ⟨c1, hc1, hc1a⟩ := List.mem_map.1 hmem
    obtain ⟨l1, l2, rfl⟩ := List.append_of_mem hc1
    have h2 : Chain heap (some c1.1) (c1 :: l2) := Chain.suffix hr
    have h3 : Chain heap (some c1.1) (c :: (l1 ++ c1 :: l2)) := by
      rw [hc1a]; exact ⟨rfl, nd, hnd, hd, hs, hr⟩
    have := congrArg List.length (Chain.unique h2 h3)
    simp at this
    omega

/-- Changing memory at an address off the chain leaves the chain as it is. -/
theorem Chain.update_off {heap : Addr → Option node} {p : Option Addr}
    {cells : List (Addr × Msg)} (h : Chain heap p cells) (a : Addr) (v : Option node)
    (ha : a ∉ cells.map Prod.fst) : Chain (Function.update heap a v) p cells := by
  induction cells generalizing p with
  | nil => exact h
  | cons c rest ih =>
    obtain ⟨hp, nd, hnd, hd, hs, hr⟩ := h
    rw [List.map_cons, List.mem_cons, not_or] at ha
    refine ⟨hp, nd, ?_, hd, hs, ih hr ha.2⟩
    rw [Function.update_noteq (Ne.symm ha.1)]
    exact hnd

/-- Linking a fresh node behind the last node of a chain extends the chain by it. -/
theorem Chain.snoc {heap : Addr → Option node} {p : Option Addr} {front : List (Addr × Msg)}
    {t : Addr} {m : Msg} (h : Chain heap p (front ++ [(t, m)])) {n : Addr}
    (hn : heap n = none) {tl : node} (htl : heap t = some tl) (data : List Byte) (len : Nat) :
    Chain
      (Function.update
        (Function.update heap n (some { data := data, size := len, next := none }))
        t (some { tl with next := some n }))
      p (front ++ [(t, m), (n, { data := data, size := len })]) := by
  have hnt : n ≠ t := by
    rintro rfl
    simp [hn] at htl
  induction front generalizing p with
  | nil =>
    obtain ⟨hp, nd, hnd, hd, hs, -⟩ := h
    simp only [htl, Option.some.injEq] at hnd
    subst hnd
    refine ⟨hp, { tl with next := some n }, Function.update_same _ _ _, hd, hs, rfl,
      { data := data, size := len, next := none }, ?_, rfl, rfl, rfl⟩
    show Function.update (Function.update heap n _) t _ n = _
    rw [Function.update_noteq hnt, Function.update_same]
  | cons c rest ih =>
    have hnodup := Chain.nodup h
    have hlive := Chain.live h (List.mem_cons_self c _)
    obtain ⟨hp, nd, hnd, hd, hs, hr⟩ := h
    have hct : c.1 ≠ t := by
      intro hEq
      simp [hEq] at hnodup
    have hcn : c.1 ≠ n := by
      rintro hEq
      rw [hEq] at hlive
      exact hlive hn
    refine ⟨hp, nd, ?_, hd, hs, ih hr⟩
    rw [Function.update_noteq hct, Function.update_noteq hcn]
    exact hnd

/-! ## The queue operations on a well-shaped queue -/

/-- On the empty queue `pop` returns `-1` and changes nothing. -/
theorem pop_nil {k : Kernel} (h : k.q.head = none) : pop k = some (-1, none, k) := by
  simp [pop, h]

/-- On a non-empty queue `pop` hands out the first message, frees its node and
leaves the rest of the queue. -/
theorem pop_cons {k : Kernel} {c : Addr × Msg} {rest : List (Addr × Msg)}
    (h : IsQueue k (c :: rest)) :
    ∃ k1, pop k = some (0, some (c.2.data, c.2.size), k1) ∧ IsQueue k1 rest ∧
      k1.qSize = k.qSize - c.2.size ∧ k1.maxSize = k.maxSize ∧
      k1.maxMsgSize = k.maxMsgSize ∧ k1.heap c.1 = none ∧ k1.q.tail = k.q.tail := by
  have hnodup := Chain.nodup h.1
  obtain ⟨⟨hp, nd, hnd, hd, hs, hr⟩, ht⟩ := h
  rw [List.map_cons, List.nodup_cons] at hnodup
  refine ⟨{ k with
            q := { k.q with head := nd.next }
            qSize := k.qSize - nd.size
            heap := Function.update k.heap c.1 none }, ?_, ⟨?_, ?_⟩, ?_, rfl, rfl, ?_, rfl⟩
  · simp [pop, hp, hnd, hd, hs]
  · exact Chain.update_off hr c.1 none hnodup.1
  · intro c1 hc1
    apply ht
    cases rest with
    | nil => simp at hc1
    | cons x xs => simpa [List.getLast?_cons_cons] using hc1
  · simp [hs]
  · simp

/-- When the allocation fails, `push` returns `-1` and changes nothing. -/
theorem push_none (k : Kernel) (data : List Byte) (len : Nat) :
    push k none data len = some (-1, k) := rfl

/-- With a fresh node `push` returns `0` and appends the message at the tail. -/
theorem push_some {k : Kernel} {cells : List (Addr × Msg)} (h : IsQueue k cells) {n : Addr}
    (hn : k.heap n = none) (data : List Byte) (len : Nat) :
    ∃ k1, push k (some n) data len = some (0, k1) ∧
      IsQueue k1 (cells ++ [(n, { data := data, size := len })]) ∧
      k1.qSize = k.qSize + len ∧ k1.maxSize = k.maxSize ∧ k1.maxMsgSize = k.maxMsgSize := by
  rcases List.eq_nil_or_concat cells with rfl | ⟨front, ⟨t, m⟩, rfl⟩
  · have hp : k.q.head = none := h.1
    refine ⟨{ k with
              heap := Function.update k.heap n (some { data := data, size := len, next := none })
              q := { head := some n, tail := some n }
              qSize := k.qSize + len }, by simp only [push, hp], ⟨?_, ?_⟩, rfl, rfl, rfl⟩
    · exact ⟨rfl, { data := data, size := len, next := none }, Function.update_same _ _ _,
        rfl, rfl, rfl⟩
    · intro c1 hc1
      simp at hc1
      subst hc1
      rfl
  · rw [List.concat_eq_append] at h
    obtain ⟨hchain, ht⟩ := h
    have htail : k.q.tail = some t := ht (t, m) (by simp)
    have hlive : k.heap t ≠ none := Chain.live hchain (c := (t, m)) (by simp)
    obtain ⟨tl, htl⟩ := Option.ne_none_iff_exists'.1 hlive
    have hnt : t ≠ n := by
      rintro hEq
      rw [hEq] at hlive
      exact hlive hn
    have hhead : ∃ a, k.q.head = some a := by
      cases front with
      | nil => exact ⟨_, hchain.1⟩
      | cons x xs => exact ⟨_, hchain.1⟩
    obtain ⟨a, ha⟩ := hhead
    refine ⟨{ k with
              heap := Function.update
                (Function.update k.heap n (some { data := data, size := len, next := none }))
                t (some { tl with next := some n })
              q := { k.q with tail := some n }
              qSize := k.qSize + len }, ?_, ⟨?_, ?_⟩, rfl, rfl, rfl⟩
    · simp only [push, ha, htail, Function.update_noteq hnt, htl]
    · have := Chain.snoc hchain hn htl data len
      simpa [List.concat_eq_append] using this
    · intro c1 hc1
      simp at hc1
      subst hc1
      rfl

/-! ## The file operations -/

/-- Reading from the empty queue. -/
theorem device_read_nil {k : Kernel} (h : k.q.head = none) (length room : Nat) :
    device_read k length room = some (-EAGAIN, [], k) := by
  simp [device_read, pop_nil h]

/-- Reading from a non-empty queue: the head message is consumed whatever the
copy does, and `min length size` bytes are asked of `copy_to_user`. -/
theorem device_read_cons {k : Kernel} {c : Addr × Msg} {rest : List (Addr × Msg)}
    (h : IsQueue k (c :: rest)) (length room : Nat) :
    ∃ k1, device_read k length room =
        some (if min length c.2.size ≤ room then ((min length c.2.size : Nat) : Int) else -EFAULT,
              c.2.data.take (min (min length c.2.size) room), k1) ∧
      IsQueue k1 rest ∧ k1.qSize = k.qSize - c.2.size ∧ k1.maxSize = k.maxSize ∧
      k1.maxMsgSize = k.maxMsgSize ∧ k1.heap c.1 = none ∧ k1.q.tail = k.q.tail := by
  obtain ⟨k1, hpop, hrest⟩ := pop_cons h
  refine ⟨k1, ?_, hrest⟩
  simp only [device_read, hpop, copy_to_user]
  by_cases hlt : c.2.size < length
  · have hmin : min length c.2.size = c.2.size := by omega
    by_cases hroom : c.2.size ≤ room
    · have h0 : c.2.size - room = 0 := by omega
      simp [hlt, hmin, hroom, h0]
    · have h0 : c.2.size - room ≠ 0 := by omega
      simp [hlt, hmin, hroom, h0]
  · have hmin : min length c.2.size = length := by omega
    by_cases hroom : length ≤ room
    · have h0 : length - room = 0 := by omega
      simp [hlt, hmin, hroom, h0]
    · have h0 : length - room ≠ 0 := by omega
      simp [hlt, hmin, hroom, h0]

/-- Every way `device_write` can return: the four rejections leave the globals
as they were, and otherwise `push` ran with the copied bytes. -/
theorem device_write_cases {k : Kernel} {buff : List Byte} {len : Nat} {msgAlloc : Bool}
    {newNode : Option Addr} {r : Int} {k1 : Kernel}
    (h : device_write k buff len msgAlloc newNode = some (r, k1)) :
    (msgAlloc = false ∧ r = -1 ∧ k1 = k) ∨
    (msgAlloc = true ∧ len > k.maxMsgSize ∧ r = -EINVAL ∧ k1 = k) ∨
    (msgAlloc = true ∧ len ≤ k.maxMsgSize ∧ k.qSize + len > k.maxSize ∧ r = -EAGAIN ∧ k1 = k) ∨
    (msgAlloc = true ∧ len ≤ k.maxMsgSize ∧ k.qSize + len ≤ k.maxSize ∧ buff.length < len ∧
      r = -EFAULT ∧ k1 = k) ∨
    (msgAlloc = true ∧ len ≤ k.maxMsgSize ∧ k.qSize + len ≤ k.maxSize ∧ len ≤ buff.length ∧
      newNode = none ∧ r = -EFAULT ∧ k1 = k) ∨
    (msgAlloc = true ∧ len ≤ k.maxMsgSize ∧ k.qSize + len ≤ k.maxSize ∧ len ≤ buff.length ∧
      r = len ∧ ∃ n, newNode = some n ∧ push k (some n) (buff.take len) len = some (0, k1)) := by
  unfold device_write at h
  by_cases h1 : msgAlloc = false
  · simp [h1] at h
    exact Or.inl ⟨h1, h.1.symm, h.2.symm⟩
  have h1t : msgAlloc = true := by simpa using h1
  by_cases h2 : len > k.maxMsgSize
  · simp [h1t, h2] at h
    exact Or.inr (Or.inl ⟨h1t, h2, h.1.symm, h.2.symm⟩)
  have h2le : len ≤ k.maxMsgSize := by omega
  by_cases h3 : k.qSize + len > k.maxSize
  · simp [h1t, h2, h3] at h
    exact Or.inr (Or.inr (Or.inl ⟨h1t, h2le, h3, h.1.symm, h.2.symm⟩))
  have h3le : k.qSize + len ≤ k.maxSize := by omega
  by_cases h4 : copy_from_user buff len ≠ 0
  · simp [h1t, h2, h3, h4] at h
    have : buff.length < len := by
      unfold copy_from_user at h4; omega
    exact Or.inr (Or.inr (Or.inr (Or.inl ⟨h1t, h2le, h3le, this, h.1.symm, h.2.symm⟩)))
  have h4le : len ≤ buff.length := by
    unfold copy_from_user at h4; omega
  simp only [h1t, h2, h3, h4, if_false, Bool.true_eq_false] at h
  cases hn : newNode with
  | none =>
    rw [hn, push_none] at h
    simp at h
    exact Or.inr (Or.inr (Or.inr (Or.inr (Or.inl ⟨h1t, h2le, h3le, h4le, rfl, h.1.symm, h.2.symm⟩))))
  | some n =>
    rw [hn] at h
    cases hp : push k (some n) (List.take len buff) len with
    | none => simp [hp] at h
    | some res =>
      obtain ⟨r1, k2⟩ := res
      have hr1 : r1 = 0 := by
        unfold push at hp
        simp only at hp
        split at hp
        · simp at hp; exact hp.1.symm
        · split at hp
          · simp at hp
          · split at hp
            · simp at hp
            · simp at hp; exact hp.1.symm
      subst hr1
      simp [hp] at h
      refine Or.inr (Or.inr (Or.inr (Or.inr (Or.inr
        ⟨h1t, h2le, h3le, h4le, h.1.symm, n, rfl, ?_⟩))))
      rw [← h.2]
      exact hp

/-- A write that passes both limit checks, meets no fault and gets its memory
is accepted and appends the message. -/
theorem device_write_accept {k : Kernel} {cells : List (Addr × Msg)} (h : IsQueue k cells)
    {buff : List Byte} {len : Nat} {n : Addr} (hmsg : len ≤ k.maxMsgSize)
    (hcap : k.qSize + len ≤ k.maxSize) (hcopy : len ≤ buff.length) (hn : k.heap n = none) :
    ∃ k1, device_write k buff len true (some n) = some ((len : Int), k1) ∧
      IsQueue k1 (cells ++ [(n, { data := buff.take len, size := len })]) ∧
      k1.qSize = k.qSize + len ∧ k1.maxSize = k.maxSize ∧ k1.maxMsgSize = k.maxMsgSize := by
  obtain ⟨k1, hpush, hrest⟩ := push_some h hn (buff.take len) len
  refine ⟨k1, ?_, hrest⟩
  have h2 : ¬ len > k.maxMsgSize := by omega
  have h3 : ¬ k.qSize + len > k.maxSize := by omega
  have h4 : copy_from_user buff len = 0 := by unfold copy_from_user; omega
  simp [device_write, h2, h3, h4, hpush]

/-! ## Invariant of the reachable states -/

theorem totalSize_nonneg (cells : List (Addr × Msg)) : 0 ≤ totalSize cells := by
  induction cells with
  | nil => simp [totalSize]
  | cons c rest ih =>
    simp only [totalSize, List.map_cons, List.sum_cons] at ih ⊢
    omega

theorem totalSize_cons (c : Addr × Msg) (rest : List (Addr × Msg)) :
    totalSize (c :: rest) = c.2.size + totalSize rest := by
  simp [totalSize]

theorem totalSize_append (cells more : List (Addr × Msg)) :
    totalSize (cells ++ more) = totalSize cells + totalSize more := by
  simp [totalSize]

theorem inv_initial (maxSize0 maxMsgSize0 : Nat) : Inv (initial maxSize0 maxMsgSize0) [] := by
  refine ⟨⟨rfl, ?_⟩, ?_, rfl, ?_⟩
  · simp
  · simp
  · simp [initial, init]

/-- The invariant survives `device_read`. -/
theorem inv_read {k : Kernel} {cells : List (Addr × Msg)} (h : Inv k cells)
    (length room : Nat) :
    ∃ r bytes k1, device_read k length room = some (r, bytes, k1) ∧ Inv k1 cells.tail := by
  obtain ⟨hq, hlen, hsz, hcap⟩ := h
  cases cells with
  | nil =>
    have hp : k.q.head = none := hq.1
    exact ⟨_, _, _, device_read_nil hp length room, hq, hlen, hsz, hcap⟩
  | cons c rest =>
    obtain ⟨k1, hrd, hq1, hs1, hm1, -, -, -⟩ := device_read_cons hq length room
    refine ⟨_, _, k1, hrd, hq1, fun c1 hc1 => hlen c1 (List.mem_cons_of_mem _ hc1), ?_, ?_⟩
    · rw [hs1, hsz, totalSize_cons]; simp
    · rw [hs1, hm1]
      have := totalSize_nonneg [c]
      simp [totalSize] at this
      omega

/-- The invariant survives `device_write` when the allocator hands out an
unused address. -/
theorem inv_write {k : Kernel} {cells : List (Addr × Msg)} (h : Inv k cells)
    (buff : List Byte) (len : Nat) (msgAlloc : Bool) (newNode : Option Addr)
    (hfresh : allocFresh k (.write buff len msgAlloc newNode)) :
    ∃ r k1, device_write k buff len msgAlloc newNode = some (r, k1) ∧
      ((r < 0 ∧ k1 = k) ∨
       (r = len ∧ ∃ n, newNode = some n ∧
          Inv k1 (cells ++ [(n, { data := buff.take len, size := len })]))) := by
  obtain ⟨hq, hlen, hsz, hcap⟩ := h
  by_cases hacc : msgAlloc = true ∧ len ≤ k.maxMsgSize ∧ k.qSize + len ≤ k.maxSize ∧
      len ≤ buff.length ∧ newNode ≠ none
  · obtain ⟨h1, h2, h3, h4, h5⟩ := hacc
    obtain ⟨n, rfl⟩ := Option.ne_none_iff_exists'.1 h5
    subst h1
    have hn : k.heap n = none := hfresh
    obtain ⟨k1, hw, hq1, hs1, hm1, -⟩ := device_write_accept hq h2 h3 h4 hn
    refine ⟨_, k1, hw, Or.inr ⟨rfl, n, rfl, hq1, ?_, ?_, ?_⟩⟩
    · intro c hc
      rcases List.mem_append.1 hc with hc | hc
      · exact hlen c hc
      · simp at hc
        subst hc
        simp [h4]
    · rw [hs1, hsz, totalSize_append]; simp [totalSize]
    · rw [hs1, hm1]; exact h3
  · have key : ∃ r, r < 0 ∧ device_write k buff len msgAlloc newNode = some (r, k) := by
      unfold device_write
      by_cases h1 : msgAlloc = false
      · exact ⟨-1, by decide, by simp [h1]⟩
      have h1t : msgAlloc = true := by simpa using h1
      by_cases h2 : len > k.maxMsgSize
      · exact ⟨-EINVAL, by decide, by simp [h1t, h2]⟩
      by_cases h3 : k.qSize + len > k.maxSize
      · exact ⟨-EAGAIN, by decide, by simp [h1t, h2, h3]⟩
      by_cases h4 : copy_from_user buff len ≠ 0
      · exact ⟨-EFAULT, by decide, by simp [h1t, h2, h3, h4]⟩
      have h4le : len ≤ buff.length := by
        unfold copy_from_user at h4; omega
      have h5 : newNode = none := by
        by_contra h5
        exact hacc ⟨h1t, by omega, by omega, h4le, h5⟩
      subst h5
      exact ⟨-EFAULT, by decide, by simp [h1t, h2, h3, h4, push_none]⟩
    obtain ⟨r, hr, hw⟩ := key
    exact ⟨r, k, hw, Or.inl ⟨hr, rfl⟩⟩

/-- The invariant survives `device_ioctl`. -/
theorem inv_ioctl {k : Kernel} {cells : List (Addr × Msg)} (h : Inv k cells)
    (ioctl_num ioctl_param : Nat) : Inv (device_ioctl k ioctl_num ioctl_param).2 cells := by
  obtain ⟨hq, hlen, hsz, hcap⟩ := h
  unfold device_ioctl
  by_cases h0 : ioctl_num = 0
  · by_cases h1 : ioctl_param > k.maxSize ∨ (ioctl_param : Int) > k.qSize
    · simp only [h0, h1, if_true]
      refine ⟨hq, hlen, hsz, ?_⟩
      show k.qSize ≤ (ioctl_param : Int)
      rcases h1 with h1 | h1
      · have : (k.maxSize : Int) < ioctl_param := by exact_mod_cast h1
        omega
      · omega
    · simp only [h0, h1, if_true, if_false]
      exact ⟨hq, hlen, hsz, hcap⟩
  · simp only [h0, if_false]
    exact ⟨hq, hlen, hsz, hcap⟩

/-- Every call made on a state satisfying the invariant returns (no invalid
memory access) and re-establishes the invariant. -/
theorem inv_step {k : Kernel} {cells : List (Addr × Msg)} (h : Inv k cells) (c : Call)
    (hfresh : allocFresh k c) :
    ∃ r k1 cells1, step k c = some (r, k1) ∧ Inv k1 cells1 := by
  cases c with
  | write buff len msgAlloc newNode =>
    obtain ⟨r, k1, hw, hres⟩ := inv_write h buff len msgAlloc newNode hfresh
    rcases hres with ⟨-, rfl⟩ | ⟨-, n, -, hinv⟩
    · exact ⟨r, _, cells, hw, h⟩
    · exact ⟨r, k1, _, hw, hinv⟩
  | read length room =>
    obtain ⟨r, bytes, k1, hrd, hinv⟩ := inv_read h length room
    exact ⟨r, k1, _, by simp [step, hrd], hinv⟩
  | ioctl ioctl_num ioctl_param =>
    exact ⟨_, _, cells, rfl, inv_ioctl h ioctl_num ioctl_param⟩

/-- Every reachable state satisfies the invariant. -/
theorem inv_reachable {maxSize0 maxMsgSize0 : Nat} {k : Kernel}
    (h : Reachable maxSize0 maxMsgSize0 k) : ∃ cells, Inv k cells := by
  induction h with
  | start => exact ⟨[], inv_initial _ _⟩
  | call k c r k1 _ hfresh hstep ih =>
    obtain ⟨cells, hinv⟩ := ih
    obtain ⟨r1, k2, cells1, hs, hinv1⟩ := inv_step hinv c hfresh
    rw [hstep] at hs
    cases hs
    exact ⟨cells1, hinv1⟩

/-! ## Sequences of writes and reads -/

/-- Accepted writes append their messages, in order, behind what was queued. -/
theorem writes_isQueue {k k1 : Kernel} {ws : List (List Byte × Nat)} (hw : Writes k ws k1)
    {cells : List (Addr × Msg)} (hq : IsQueue k cells) :
    ∃ more, IsQueue k1 (cells ++ more) ∧
      more.map Prod.snd = ws.map (fun w => ({ data := w.1.take w.2, size := w.2 } : Msg)) ∧
      ∀ w ∈ ws, w.2 ≤ w.1.length := by
  induction hw generalizing cells with
  | done k => exact ⟨[], by simpa using hq, rfl, by simp⟩
  | next k buff len msgAlloc newNode k1 k2 ws hfresh hwr _ ih =>
    have hlen0 : (0 : Int) ≤ len := Int.ofNat_nonneg len
    rcases device_write_cases hwr with h | h | h | h | h | h
    · obtain ⟨-, hr, -⟩ := h; omega
    · obtain ⟨-, -, hr, -⟩ := h; simp only [EINVAL] at hr; omega
    · obtain ⟨-, -, -, hr, -⟩ := h; simp only [EAGAIN] at hr; omega
    · obtain ⟨-, -, -, -, hr, -⟩ := h; simp only [EFAULT] at hr; omega
    · obtain ⟨-, -, -, -, -, hr, -⟩ := h; simp only [EFAULT] at hr; omega
    · obtain ⟨-, -, -, hcopy, -, n, rfl, hpush⟩ := h
      have hn : k.heap n = none := hfresh
      obtain ⟨k1a, hpush1, hq1, -⟩ := push_some hq hn (buff.take len) len
      rw [hpush] at hpush1
      cases hpush1
      obtain ⟨more, hq2, hmap, hall⟩ := ih hq1
      refine ⟨(n, { data := buff.take len, size := len }) :: more, ?_, ?_, ?_⟩
      · simpa using hq2
      · simp [hmap]
      · intro w hwmem
        rcases List.mem_cons.1 hwmem with rfl | hwmem
        · exact hcopy
        · exact hall w hwmem

/-- Reads that ask for at least the size of each message, into buffers with
room for it, deliver the queued messages one by one and empty the queue. -/
theorem reads_all {k : Kernel} {cells : List (Addr × Msg)} (hq : IsQueue k cells)
    {rs : List (Nat × Nat)}
    (hrs : List.Forall₂ (fun (m : Msg) (r : Nat × Nat) => m.size ≤ r.1 ∧ m.size ≤ r.2)
      (cells.map Prod.snd) rs) :
    ∃ k2, reads k rs =
        some ((cells.map Prod.snd).map (fun m => ((m.size : Int), m.data.take m.size)), k2) ∧
      IsQueue k2 [] := by
  induction cells generalizing k rs with
  | nil =>
    cases hrs
    exact ⟨k, rfl, hq⟩
  | cons c rest ih =>
    rw [List.map_cons] at hrs
    cases hrs with
    | cons hhead htail =>
      rename_i r rs1
      obtain ⟨k1, hrd, hq1, -⟩ := device_read_cons hq r.1 r.2
      obtain ⟨k2, hreads, hq2⟩ := ih hq1 htail
      refine ⟨k2, ?_, hq2⟩
      have hmin : min r.1 c.2.size = c.2.size := by omega
      have hmin2 : min c.2.size r.2 = c.2.size := by omega
      simp only [hmin, hhead.2, if_true, hmin2] at hrd
      simp [reads, hrd, hreads]

/-- Reads never deliver anything but prefixes of the messages that are queued
when they start (and nothing at all once the queue is empty). -/
theorem reads_prefix {k : Kernel} {cells : List (Addr × Msg)} (hq : IsQueue k cells)
    (rs : List (Nat × Nat)) :
    ∃ outs k2, reads k rs = some (outs, k2) ∧
      ∀ o ∈ outs, o.2 = [] ∨ ∃ c ∈ cells, o.2 <+: c.2.data := by
  induction rs generalizing k cells with
  | nil => exact ⟨[], k, rfl, by simp⟩
  | cons r rs ih =>
    cases cells with
    | nil =>
      have hp : k.q.head = none := hq.1
      obtain ⟨outs, k2, hreads, hall⟩ := ih hq
      refine ⟨(-EAGAIN, []) :: outs, k2, by simp [reads, device_read_nil hp, hreads], ?_⟩
      intro o ho
      rcases List.mem_cons.1 ho with rfl | ho
      · exact Or.inl rfl
      · exact hall o ho
    | cons c rest =>
      obtain ⟨k1, hrd, hq1, -⟩ := device_read_cons hq r.1 r.2
      obtain ⟨outs, k2, hreads, hall⟩ := ih hq1
      refine ⟨((if min r.1 c.2.size ≤ r.2 then ((min r.1 c.2.size : Nat) : Int) else -EFAULT),
          c.2.data.take (min (min r.1 c.2.size) r.2)) :: outs, k2,
        by simp only [reads, hrd, hreads], ?_⟩
      intro o ho
      rcases List.mem_cons.1 ho with rfl | ho
      · exact Or.inr ⟨c, List.mem_cons_self _ _, List.take_prefix _ _⟩
      · rcases hall o ho with h | ⟨c1, hc1, hpre⟩
        · exact Or.inl h
        · exact Or.inr ⟨c1, List.mem_cons_of_mem _ hc1, hpre⟩

/-- A call of `device_read` that returns `-EFAULT` has popped the head node. -/
theorem device_read_efault {k k1 : Kernel} {length room : Nat} {bytes : List Byte}
    (h : device_read k length room = some (-EFAULT, bytes, k1)) :
    ∃ a nd, k.q.head = some a ∧ k.heap a = some nd ∧ k1.q.head = nd.next ∧
      k1.heap a = none ∧ k1.qSize = k.qSize - nd.size ∧ k1.maxSize = k.maxSize ∧
      k1.maxMsgSize = k.maxMsgSize := by
  unfold device_read pop at h
  cases hh : k.q.head with
  | none => simp [hh, EAGAIN, EFAULT] at h
  | some a =>
    cases hnd : k.heap a with
    | none => simp [hh, hnd] at h
    | some nd =>
      refine ⟨a, nd, rfl, hnd, ?_⟩
      simp only [hh, hnd] at h
      have hk : k1 = { k with
            q := { k.q with head := nd.next }
            qSize := k.qSize - nd.size
            heap := Function.update k.heap a none } := by
        simp only [show ((0 : Int) = -1) = False from by decide, if_false] at h
        split at h <;> split at h <;> simp at h <;>
          first | exact h.2.2.symm | exact h.2.symm
      subst hk
      simp

/-- Every way `device_read` can return: on `head = NULL` it returns `-EAGAIN` and
changes nothing; otherwise the head node has been popped and the call returns
`-EFAULT` or `min length size`. -/
theorem device_read_cases {k k1 : Kernel} {length room : Nat} {ret : Int}
    {bytes : List Byte} (h : device_read k length room = some (ret, bytes, k1)) :
    (k.q.head = none ∧ ret = -EAGAIN ∧ bytes = [] ∧ k1 = k) ∨
    (∃ a nd, k.q.head = some a ∧ k.heap a = some nd ∧
      k1 = { k with
             q := { k.q with head := nd.next }
             qSize := k.qSize - nd.size
             heap := Function.update k.heap a none } ∧
      (ret = -EFAULT ∨ ret = ((min length nd.size : Nat) : Int))) := by
  unfold device_read pop at h
  cases hh : k.q.head with
  | none =>
    simp [hh] at h
    exact Or.inl ⟨rfl, h.1.symm, h.2.1, h.2.2.symm⟩
  | some a =>
    cases hnd : k.heap a with
    | none => simp [hh, hnd] at h
    | some nd =>
      refine Or.inr ⟨a, nd, rfl, hnd, ?_⟩
      simp only [hh, hnd, show ((0 : Int) = -1) = False from by decide, if_false] at h
      by_cases hlt : nd.size < length
      · have hmin : min length nd.size = nd.size := by omega
        rw [hmin]
        simp only [hlt, if_true] at h
        split at h <;> simp at h
        · exact ⟨h.2.2.symm, Or.inl h.1.symm⟩
        · exact ⟨h.2.2.symm, Or.inr h.1.symm⟩
      · have hmin : min length nd.size = length := by omega
        rw [hmin]
        simp only [hlt, if_false] at h
        split at h <;> simp at h
        · exact ⟨h.2.2.symm, Or.inl h.1.symm⟩
        · exact ⟨h.2.2.symm, Or.inr h.1.symm⟩

/-- On a well-shaped queue, with a sound allocator, `device_write` returns. -/
theorem device_write_total {k : Kernel} {cells : List (Addr × Msg)} (hq : IsQueue k cells)
    (buff : List Byte) (len : Nat) (msgAlloc : Bool) (newNode : Option Addr)
    (hfresh : allocFresh k (.write buff len msgAlloc newNode)) :
    ∃ r k1, device_write k buff len msgAlloc newNode = some (r, k1) := by
  unfold device_write
  by_cases h1 : msgAlloc = false
  · exact ⟨-1, k, by simp [h1]⟩
  have h1t : msgAlloc = true := by simpa using h1
  by_cases h2 : len > k.maxMsgSize
  · exact ⟨-EINVAL, k, by simp [h1t, h2]⟩
  by_cases h3 : k.qSize + len > k.maxSize
  · exact ⟨-EAGAIN, k, by simp [h1t, h2, h3]⟩
  by_cases h4 : copy_from_user buff len ≠ 0
  · exact ⟨-EFAULT, k, by simp [h1t, h2, h3, h4]⟩
  cases newNode with
  | none => exact ⟨-EFAULT, k, by simp [h1t, h2, h3, h4, push_none]⟩
  | some n =>
    have hn : k.heap n = none := hfresh
    obtain ⟨k1, hpush, -⟩ := push_some hq hn (buff.take len) len
    exact ⟨len, k1, by simp [h1t, h2, h3, h4, hpush]⟩

/-- On a well-shaped queue, with a sound allocator, every call returns. -/
theorem step_total {k : Kernel} {cells : List (Addr × Msg)} (hq : IsQueue k cells) (c : Call)
    (hfresh : allocFresh k c) : ∃ r k1, step k c = some (r, k1) := by
  cases c with
  | write buff len msgAlloc newNode => exact device_write_total hq buff len msgAlloc newNode hfresh
  | read length room =>
    cases cells with
    | nil =>
      have hrd := device_read_nil hq.1 length room
      simp only [step, hrd, Option.map]
      exact ⟨_, _, rfl⟩
    | cons c rest =>
      obtain ⟨k1, hrd, -⟩ := device_read_cons hq length room
      simp only [step, hrd, Option.map]
      exact ⟨_, _, rfl⟩
  | ioctl ioctl_num ioctl_param => exact ⟨_, _, rfl⟩

/-- A writer that runs its two steps without interruption does what
`device_write` does. -/
theorem writer_sequential (k : Kernel) (buff : List Byte) (len : Nat) (msgAlloc : Bool)
    (newNode : Option Addr) :
    (Writer.step k (.entered buff len msgAlloc newNode)).bind (fun p => Writer.step p.2 p.1) =
      (device_write k buff len msgAlloc newNode).map (fun r => (Writer.returned r.1, r.2)) := by
  unfold device_write
  simp only [Writer.step, write_checks]
  by_cases h1 : msgAlloc = false
  · simp [h1, Writer.step]
  have h1t : msgAlloc = true := by simpa using h1
  by_cases h2 : len > k.maxMsgSize
  · simp [h1t, h2, Writer.step]
  by_cases h3 : k.qSize + len > k.maxSize
  · simp [h1t, h2, h3, Writer.step]
  by_cases h4 : copy_from_user buff len ≠ 0
  · simp [h1t, h2, h3, h4, Writer.step]
  simp only [h1t, h2, h3, h4, if_false, Bool.true_eq_false, Option.some_bind, Writer.step]
  cases push k newNode (List.take len buff) len with
  | none => rfl
  | some res =>
    obtain ⟨r, k1⟩ := res
    by_cases hr : r = -1 <;> simp [hr]

/-- The linked queue simulates the abstract FIFO list: from a well-shaped queue
holding the messages `ms`, any sequence of queue calls (with a sound allocator)
runs to the end, hands back what the list model hands back, and leaves a
well-shaped queue holding the list model's final messages. -/
theorem qrun_refines {k : Kernel} {cells : List (Addr × Msg)} (hq : IsQueue k cells)
    (ops : List QOp) (hfresh : freshRun k ops) :
    ∃ k1 cells1, qrun k ops = some ((fifoRun (cells.map Prod.snd) ops).1, k1) ∧
      IsQueue k1 cells1 ∧ cells1.map Prod.snd = (fifoRun (cells.map Prod.snd) ops).2 := by
  induction ops generalizing k cells with
  | nil => exact ⟨k, cells, rfl, hq, rfl⟩
  | cons op ops ih =>
    cases op with
    | push newNode data len =>
      cases newNode with
      | none =>
        have hstep : qstep k (.push none data len) = some ((-1, none), k) := rfl
        simp only [freshRun, hstep] at hfresh
        obtain ⟨k1, cells1, hrun, hq1, hmap⟩ := ih hq hfresh.2
        exact ⟨k1, cells1, by simp only [qrun, hstep, hrun, fifoRun, fifoStep], hq1,
          by simpa only [fifoRun, fifoStep] using hmap⟩
      | some n =>
        have hn : k.heap n = none := hfresh.1
        obtain ⟨k1, hpush, hq1, -⟩ := push_some hq hn data len
        have hstep : qstep k (.push (some n) data len) = some ((0, none), k1) := by
          simp [qstep, hpush]
        simp only [freshRun, hstep] at hfresh
        obtain ⟨k2, cells2, hrun, hq2, hmap⟩ := ih hq1 hfresh.2
        rw [List.map_append, List.map_cons, List.map_nil] at hrun hmap
        exact ⟨k2, cells2, by simp only [qrun, hstep, hrun, fifoRun, fifoStep], hq2,
          by simpa only [fifoRun, fifoStep] using hmap⟩
    | pop =>
      cases cells with
      | nil =>
        have hstep : qstep k .pop = some ((-1, none), k) := by
          simp [qstep, pop_nil hq.1]
        simp only [freshRun, hstep] at hfresh
        obtain ⟨k1, cells1, hrun, hq1, hmap⟩ := ih hq hfresh.2
        exact ⟨k1, cells1, by simp only [qrun, hstep, hrun, fifoRun, fifoStep, List.map_nil],
          hq1, by simpa only [fifoRun, fifoStep, List.map_nil] using hmap⟩
      | cons c rest =>
        obtain ⟨k1, hpop, hq1, -⟩ := pop_cons hq
        have hstep : qstep k .pop = some ((0, some (c.2.data, c.2.size)), k1) := by
          simp [qstep, hpop]
        simp only [freshRun, hstep] at hfresh
        obtain ⟨k2, cells2, hrun, hq2, hmap⟩ := ih hq1 hfresh.2
        exact ⟨k2, cells2,
          by simp only [qrun, hstep, hrun, fifoRun, fifoStep, List.map_cons], hq2,
          by simpa only [fifoRun, fifoStep, List.map_cons] using hmap⟩

/-- On the empty queue `push` links the new node as both `head` and `tail`
without reading or writing through the old `tail`. -/
theorem push_on_empty {k : Kernel} (h : k.q.head = none) (n : Addr) (data : List Byte)
    (len : Nat) :
    ∃ k1, push k (some n) data len = some (0, k1) ∧ k1.q.head = some n ∧
      k1.q.tail = some n ∧ ∀ a, a ≠ n → k1.heap a = k.heap a := by
  refine ⟨{ k with
            heap := Function.update k.heap n (some { data := data, size := len, next := none })
            q := { head := some n, tail := some n }
            qSize := k.qSize + len }, by simp only [push, h], rfl, rfl, ?_⟩
  intro a ha
  exact Function.update_noteq ha _ _

/-! ## Properties of the driver -/

/-- C1 (FIFO delivery). Starting from an empty queue, after any list of accepted
writes, reads that ask for at least the length of each message (and meet no
copy fault) return the written messages in the order written, each with its
exact bytes and exact length, and the read after the last one reports
`-EAGAIN`. -/
theorem fifo_delivery (k k1 : Kernel) (ws : List (List Byte × Nat)) (rs : List (Nat × Nat))
    (hempty : k.q.head = none) (hw : Writes k ws k1)
    (hrs : List.Forall₂ (fun w r => w.2 ≤ r.1 ∧ w.2 ≤ r.2) ws rs) :
    ∃ k2, reads k1 rs = some (ws.map (fun w => ((w.2 : Int), w.1.take w.2)), k2) ∧
      (∀ w ∈ ws, (w.1.take w.2).length = w.2) ∧
      ∀ length room, device_read k2 length room = some (-EAGAIN, [], k2) := by
  have hq : IsQueue k [] := ⟨hempty, by simp⟩
  obtain ⟨more, hq1, hmap, hall⟩ := writes_isQueue hw hq
  rw [List.nil_append] at hq1
  have hrs1 : List.Forall₂ (fun (m : Msg) (r : Nat × Nat) => m.size ≤ r.1 ∧ m.size ≤ r.2)
      (more.map Prod.snd) rs := by
    rw [hmap, List.forall₂_map_left_iff]
    exact hrs
  obtain ⟨k2, hreads, hq2⟩ := reads_all hq1 hrs1
  refine ⟨k2, ?_, ?_, fun length room => device_read_nil hq2.1 length room⟩
  · rw [hreads, hmap, List.map_map]
    congr 2
    apply List.map_congr_left
    intro w _
    simp [List.take_take]
  · intro w hwmem
    rw [List.length_take]
    exact Nat.min_eq_left (hall w hwmem)

/-- Instance of C1: "hello" and then the bytes `1, 2, 3` are written to the fresh
device; two reads return them in that order and a third finds the queue empty. -/
theorem fifo_delivery_witness :
    (initial 100 10).q.head = none ∧
    Writes (initial 100 10) [(hello, 5), ([1, 2, 3], 3)] afterTwo ∧
    (reads afterTwo [(5, 5), (4, 4), (1, 1)]).map Prod.fst =
      some [(5, hello), (3, [1, 2, 3]), (-EAGAIN, [])] ∧
    ∃ k2, reads afterTwo [(5, 5), (4, 4)] =
        some (([(hello, 5), ([1, 2, 3], 3)] : List (List Byte × Nat)).map
          (fun w => ((w.2 : Int), w.1.take w.2)), k2) ∧
      (∀ w ∈ ([(hello, 5), ([1, 2, 3], 3)] : List (List Byte × Nat)),
        (w.1.take w.2).length = w.2) ∧
      ∀ length room, device_read k2 length room = some (-EAGAIN, [], k2) :=
  have hw : Writes (initial 100 10) [(hello, 5), ([1, 2, 3], 3)] afterTwo :=
    Writes.next _ hello 5 true (some 1) afterHello afterTwo _ rfl rfl
      (Writes.next _ [1, 2, 3] 3 true (some 2) afterTwo afterTwo [] rfl rfl (Writes.done _))
  ⟨rfl, hw, by decide,
    fifo_delivery (initial 100 10) afterTwo [(hello, 5), ([1, 2, 3], 3)] [(5, 5), (4, 4)] rfl hw
      (List.Forall₂.cons ⟨by decide, by decide⟩
        (List.Forall₂.cons ⟨by decide, by decide⟩ List.Forall₂.nil))⟩

/-- C2 (size counter). In every state reachable from module start by calls made
one after the other, whatever their outcomes, `qSize` is the sum of the size
fields of the nodes linked from `head` and is not negative; and every further
call returns. -/
theorem size_counter_invariant (maxSize0 maxMsgSize0 : Nat) (k : Kernel)
    (h : Reachable maxSize0 maxMsgSize0 k) :
    (∃ cells, Chain k.heap k.q.head cells ∧ k.qSize = totalSize cells ∧ 0 ≤ k.qSize) ∧
    ∀ c, allocFresh k c → ∃ r k1, step k c = some (r, k1) := by
  obtain ⟨cells, hinv⟩ := inv_reachable h
  refine ⟨⟨cells, hinv.1.1, hinv.2.2.1, ?_⟩, ?_⟩
  · rw [hinv.2.2.1]; exact totalSize_nonneg cells
  · intro c hc
    obtain ⟨r, k1, _, hs, -⟩ := inv_step hinv c hc
    exact ⟨r, k1, hs⟩

/-- Instance of C2 at the state reached by one accepted write of "hello". -/
theorem size_counter_invariant_witness :
    Reachable 100 10 afterHello ∧
    (∃ cells, Chain afterHello.heap afterHello.q.head cells ∧
      afterHello.qSize = totalSize cells ∧ 0 ≤ afterHello.qSize) ∧
    ∀ c, allocFresh afterHello c → ∃ r k1, step afterHello c = some (r, k1) :=
  have hr : Reachable 100 10 afterHello :=
    Reachable.call (initial 100 10) (.write hello 5 true (some 1)) 5 afterHello
      Reachable.start rfl rfl
  ⟨hr, size_counter_invariant 100 10 afterHello hr⟩

/-- C3 (aggregate bound). In every reachable state `qSize ≤ maxSize`, and a
control call that is accepted there leaves a cap that is not below `qSize`. -/
theorem aggregate_bound (maxSize0 maxMsgSize0 : Nat) (k : Kernel)
    (h : Reachable maxSize0 maxMsgSize0 k) :
    k.qSize ≤ k.maxSize ∧
    ∀ ioctl_num ioctl_param, (device_ioctl k ioctl_num ioctl_param).1 = 0 →
      (device_ioctl k ioctl_num ioctl_param).2.qSize ≤
        (device_ioctl k ioctl_num ioctl_param).2.maxSize := by
  obtain ⟨cells, hinv⟩ := inv_reachable h
  exact ⟨hinv.2.2.2, fun ioctl_num ioctl_param _ => (inv_ioctl hinv ioctl_num ioctl_param).2.2.2⟩

/-- Instance of C3 at the state reached by one accepted write of "hello". -/
theorem aggregate_bound_witness :
    Reachable 100 10 afterHello ∧ afterHello.qSize ≤ afterHello.maxSize ∧
    ∀ ioctl_num ioctl_param, (device_ioctl afterHello ioctl_num ioctl_param).1 = 0 →
      (device_ioctl afterHello ioctl_num ioctl_param).2.qSize ≤
        (device_ioctl afterHello ioctl_num ioctl_param).2.maxSize :=
  have hr : Reachable 100 10 afterHello :=
    Reachable.call (initial 100 10) (.write hello 5 true (some 1)) 5 afterHello
      Reachable.start rfl rfl
  ⟨hr, aggregate_bound 100 10 afterHello hr⟩

/-- C4 (truncating read). On a non-empty queue whose head message has size `L`, a
read asking for fewer than `L` bytes (no copy fault) returns exactly the first
`length` bytes, removes the whole head message (its node is freed, `qSize`
drops by `L`), the following read starts at the first byte of the next message
or reports `-EAGAIN` when there is none, and all later reads deliver only
prefixes of the messages that were behind the head. -/
theorem truncating_read (k : Kernel) (a : Addr) (m : Msg) (rest : List (Addr × Msg))
    (length room : Nat) (hq : IsQueue k ((a, m) :: rest)) (hbuf : m.data.length = m.size)
    (hlt : length < m.size) (hroom : length ≤ room) :
    ∃ k1, device_read k length room = some ((length : Int), m.data.take length, k1) ∧
      (m.data.take length).length = length ∧
      IsQueue k1 rest ∧ k1.heap a = none ∧ k1.qSize = k.qSize - m.size ∧
      (rest = [] → ∀ length2 room2, device_read k1 length2 room2 = some (-EAGAIN, [], k1)) ∧
      (∀ c tl, rest = c :: tl → ∀ length2 room2, ∃ r k2,
        device_read k1 length2 room2 =
          some (r, c.2.data.take (min (min length2 c.2.size) room2), k2)) ∧
      ∀ rs, ∃ outs k2, reads k1 rs = some (outs, k2) ∧
        ∀ o ∈ outs, o.2 = [] ∨ ∃ c ∈ rest, o.2 <+: c.2.data := by
  obtain ⟨k1, hrd, hq1, hs1, -, -, hfree, -⟩ := device_read_cons hq length room
  have hmin : min length m.size = length := by omega
  have hmin2 : min length room = length := by omega
  simp only [hmin, hroom, if_true, hmin2] at hrd
  refine ⟨k1, hrd, ?_, hq1, hfree, hs1, ?_, ?_, fun rs => reads_prefix hq1 rs⟩
  · rw [List.length_take]; omega
  · intro hnil length2 room2
    subst hnil
    exact device_read_nil hq1.1 length2 room2
  · intro c tl hcons length2 room2
    subst hcons
    obtain ⟨k2, hrd2, -⟩ := device_read_cons hq1 length2 room2
    exact ⟨_, k2, hrd2⟩

/-- Instance of C4: limits 10/100, "hello" written, `read(3)` gives "hel", the
counter is back to 0 and the next read reports `-EAGAIN`. -/
theorem truncating_read_witness :
    IsQueue afterHello [(1, { data := hello, size := 5 })] ∧
    (device_read afterHello 3 3).map (fun r => (r.1, r.2.1, r.2.2.qSize)) =
      some (3, [104, 101, 108], 0) ∧
    ∃ k1, device_read afterHello 3 3 = some ((3 : Int), hello.take 3, k1) ∧
      (hello.take 3).length = 3 ∧
      IsQueue k1 [] ∧ k1.heap 1 = none ∧ k1.qSize = afterHello.qSize - 5 ∧
      (([] : List (Addr × Msg)) = [] →
        ∀ length2 room2, device_read k1 length2 room2 = some (-EAGAIN, [], k1)) ∧
      (∀ c tl, ([] : List (Addr × Msg)) = c :: tl → ∀ length2 room2, ∃ r k2,
        device_read k1 length2 room2 =
          some (r, c.2.data.take (min (min length2 c.2.size) room2), k2)) ∧
      ∀ rs, ∃ outs k2, reads k1 rs = some (outs, k2) ∧
        ∀ o ∈ outs, o.2 = [] ∨ ∃ c ∈ ([] : List (Addr × Msg)), o.2 <+: c.2.data :=
  ⟨by decide, by decide,
    truncating_read afterHello 1 { data := hello, size := 5 } [] 3 3 (by decide) (by decide)
      (by decide) (by decide)⟩

/-- C5 (read length). On a non-empty queue, for every requested length (0 and
the exact message length included), a read without copy fault returns
`min length L` and stores exactly the first `min length L` bytes of the head
message. -/
theorem read_length (k : Kernel) (a : Addr) (m : Msg) (rest : List (Addr × Msg))
    (length room : Nat) (hq : IsQueue k ((a, m) :: rest)) (hroom : min length m.size ≤ room) :
    ∃ k1, device_read k length room =
      some (((min length m.size : Nat) : Int), m.data.take (min length m.size), k1) := by
  obtain ⟨k1, hrd, -⟩ := device_read_cons hq length room
  have hmin2 : min (min length m.size) room = min length m.size := by omega
  simp only [hroom, if_true, hmin2] at hrd
  exact ⟨k1, hrd⟩

/-- Instance of C5: reading "hello" with the requested length equal to its size. -/
theorem read_length_witness :
    IsQueue afterHello [(1, { data := hello, size := 5 })] ∧ min 5 5 ≤ 8 ∧
    ∃ k1, device_read afterHello 5 8 =
      some (((min 5 5 : Nat) : Int), hello.take (min 5 5), k1) :=
  ⟨by decide, by decide,
    read_length afterHello 1 { data := hello, size := 5 } [] 5 8 (by decide) (by decide)⟩

/-- C6 (successful write). A write within both limits, with no copy fault and no
allocation failure, returns exactly `len`, appends one message holding exactly
the `len` bytes at the tail, and adds `len` to `qSize`; the limits stay. -/
theorem write_success (k : Kernel) (cells : List (Addr × Msg)) (buff : List Byte)
    (len : Nat) (n : Addr) (hq : IsQueue k cells) (hmsg : len ≤ k.maxMsgSize)
    (hcap : k.qSize + len ≤ k.maxSize) (hcopy : len ≤ buff.length) (hn : k.heap n = none) :
    ∃ k1, device_write k buff len true (some n) = some ((len : Int), k1) ∧
      IsQueue k1 (cells ++ [(n, { data := buff.take len, size := len })]) ∧
      (buff.take len).length = len ∧
      k1.qSize = k.qSize + len ∧ k1.maxSize = k.maxSize ∧ k1.maxMsgSize = k.maxMsgSize := by
  obtain ⟨k1, hw, hq1, hs1, hm1, hmm1⟩ := device_write_accept hq hmsg hcap hcopy hn
  refine ⟨k1, hw, hq1, ?_, hs1, hm1, hmm1⟩
  rw [List.length_take]; omega

/-- Instance of C6: a second message written behind "hello". -/
theorem write_success_witness :
    IsQueue afterHello [(1, { data := hello, size := 5 })] ∧ 3 ≤ afterHello.maxMsgSize ∧
    afterHello.qSize + (3 : Nat) ≤ afterHello.maxSize ∧ 3 ≤ hello.length ∧
    afterHello.heap 2 = none ∧
    ∃ k1, device_write afterHello hello 3 true (some 2) = some (((3 : Nat) : Int), k1) ∧
      IsQueue k1 ([(1, { data := hello, size := 5 })] ++
        [(2, { data := hello.take 3, size := 3 })]) ∧
      (hello.take 3).length = 3 ∧
      k1.qSize = afterHello.qSize + (3 : Nat) ∧ k1.maxSize = afterHello.maxSize ∧
      k1.maxMsgSize = afterHello.maxMsgSize :=
  ⟨by decide, by decide, by decide, by decide, by decide,
    write_success afterHello [(1, { data := hello, size := 5 })] hello 3 2 (by decide)
      (by decide) (by decide) (by decide) (by decide)⟩

/-- C7, as stated, fails: an 11-byte write against `maxMsgSize = 10` whose payload
allocation fails returns `-1`, not `-EINVAL`. -/
theorem per_message_cap_counterexample :
    11 > (initial 100 10).maxMsgSize ∧
    device_write (initial 100 10) (List.replicate 11 0) 11 false none =
      some (-1, initial 100 10) ∧
    ¬ ∃ k1, device_write (initial 100 10) (List.replicate 11 0) 11 false none =
      some (-EINVAL, k1) := by
  refine ⟨by decide, rfl, ?_⟩
  rintro ⟨k1, h⟩
  have h1 : device_write (initial 100 10) (List.replicate 11 0) 11 false none =
      some (-1, initial 100 10) := rfl
  rw [h1] at h
  simp [EINVAL] at h

/-- C7 (per-message cap), amended. A write with `len > maxMsgSize` returns
`-EINVAL` when its payload allocation succeeded and `-1` when it failed; in both
cases all globals (queue, `qSize`, both limits) are exactly as before. -/
theorem per_message_cap (k : Kernel) (buff : List Byte) (len : Nat) (msgAlloc : Bool)
    (newNode : Option Addr) (hlen : len > k.maxMsgSize) :
    device_write k buff len msgAlloc newNode =
      some (if msgAlloc = true then -EINVAL else -1, k) := by
  cases msgAlloc <;> simp [device_write, hlen]

/-- Instance of C7: `maxMsgSize = 10`, an 11-byte write on the empty queue is
rejected with `-EINVAL` and `qSize` stays 0. -/
theorem per_message_cap_witness :
    11 > (initial 100 10).maxMsgSize ∧
    device_write (initial 100 10) (List.replicate 11 0) 11 true (some 1) =
      some (if true = true then -EINVAL else -1, initial 100 10) ∧
    (initial 100 10).qSize = 0 :=
  ⟨by decide, per_message_cap (initial 100 10) (List.replicate 11 0) 11 true (some 1)
    (by decide), rfl⟩

/-- C8, as stated, fails: with 60 of 100 bytes queued, a 60-byte write whose
payload allocation fails returns `-1`, not `-EAGAIN`. -/
theorem backpressure_counterexample :
    60 ≤ afterSixty.maxMsgSize ∧ afterSixty.qSize + (60 : Nat) > afterSixty.maxSize ∧
    device_write afterSixty sixty 60 false none = some (-1, afterSixty) ∧
    ¬ ∃ k1, device_write afterSixty sixty 60 false none = some (-EAGAIN, k1) := by
  refine ⟨by decide, by decide, rfl, ?_⟩
  rintro ⟨k1, h⟩
  have h1 : device_write afterSixty sixty 60 false none = some (-1, afterSixty) := rfl
  rw [h1] at h
  simp [EAGAIN] at h

/-- C8 (backpressure), amended. A write with `len ≤ maxMsgSize` that would take
`qSize` above `maxSize` returns `-EAGAIN` when its payload allocation succeeded
and `-1` when it failed, and in both cases all globals are exactly as before;
a write with `qSize + len ≤ maxSize` (equality included) never returns
`-EAGAIN`. -/
theorem backpressure (k : Kernel) (buff : List Byte) (len : Nat) (msgAlloc : Bool)
    (newNode : Option Addr) (hmsg : len ≤ k.maxMsgSize) :
    (k.qSize + len > k.maxSize →
      device_write k buff len msgAlloc newNode =
        some (if msgAlloc = true then -EAGAIN else -1, k)) ∧
    (k.qSize + len ≤ k.maxSize →
      ∀ r k1, device_write k buff len msgAlloc newNode = some (r, k1) → r ≠ -EAGAIN) := by
  have h2 : ¬ len > k.maxMsgSize := by omega
  constructor
  · intro hcap
    cases msgAlloc <;> simp [device_write, h2, hcap]
  · intro hcap r k1 hw
    have hlen0 : (0 : Int) ≤ len := Int.ofNat_nonneg len
    rcases device_write_cases hw with h | h | h | h | h | h
    · obtain ⟨-, hr, -⟩ := h; simp only [EAGAIN]; omega
    · obtain ⟨-, -, hr, -⟩ := h; simp only [EINVAL] at hr; simp only [EAGAIN]; omega
    · obtain ⟨-, -, hgt, -⟩ := h; omega
    · obtain ⟨-, -, -, -, hr, -⟩ := h; simp only [EFAULT] at hr; simp only [EAGAIN]; omega
    · obtain ⟨-, -, -, -, -, hr, -⟩ := h; simp only [EFAULT] at hr; simp only [EAGAIN]; omega
    · obtain ⟨-, -, -, -, hr, -⟩ := h; simp only [EAGAIN]; omega

/-- Instance of C8: `maxSize = 100`; the first 60-byte write is accepted and
`qSize` becomes 60, the second is rejected with `-EAGAIN` and `qSize` stays 60;
a 40-byte write, which fills the queue exactly, is not rejected as full. -/
theorem backpressure_witness :
    device_write (initial 100 64) sixty 60 true (some 1) = some (60, afterSixty) ∧
    afterSixty.qSize = 60 ∧
    (60 ≤ afterSixty.maxMsgSize ∧ afterSixty.qSize + (60 : Nat) > afterSixty.maxSize ∧
      device_write afterSixty sixty 60 true (some 2) =
        some (if true = true then -EAGAIN else -1, afterSixty)) ∧
    (40 ≤ afterSixty.maxMsgSize ∧ afterSixty.qSize + (40 : Nat) ≤ afterSixty.maxSize ∧
      ∀ r k1, device_write afterSixty sixty 40 true (some 2) = some (r, k1) → r ≠ -EAGAIN) :=
  ⟨rfl, rfl,
    ⟨by decide, by decide,
      (backpressure afterSixty sixty 60 true (some 2) (by decide)).1 (by decide)⟩,
    ⟨by decide, by decide,
      (backpressure afterSixty sixty 40 true (some 2) (by decide)).2 (by decide)⟩⟩

/-- C9 (set-capacity policy). A control call with opcode 0 returns 0 exactly when
`ioctl_param > maxSize` or `ioctl_param > qSize`; it then sets `maxSize` to the
parameter and changes nothing else; otherwise it returns `-EINVAL` and changes
nothing at all. -/
theorem set_capacity_policy (k : Kernel) (p : Nat) :
    ((device_ioctl k 0 p).1 = 0 ↔ (p > k.maxSize ∨ (p : Int) > k.qSize)) ∧
    ((p > k.maxSize ∨ (p : Int) > k.qSize) →
      device_ioctl k 0 p = (0, { k with maxSize := p })) ∧
    (¬ (p > k.maxSize ∨ (p : Int) > k.qSize) → device_ioctl k 0 p = (-EINVAL, k)) := by
  by_cases h : p > k.maxSize ∨ (p : Int) > k.qSize
  · simp [device_ioctl, h]
  · simp [device_ioctl, h, EINVAL]

/-- Instance of C9: with 5 bytes queued and `maxSize = 100`, the parameter 50
is accepted and lowers the cap to 50, while the parameter 5 is rejected. -/
theorem set_capacity_policy_witness :
    (device_ioctl afterHello 0 50).1 = 0 ∧ (device_ioctl afterHello 0 50).2.maxSize = 50 ∧
    (device_ioctl afterHello 0 5).1 = -EINVAL ∧ (device_ioctl afterHello 0 5).2.maxSize = 100 :=
  ⟨((set_capacity_policy afterHello 50).1).2 (by decide), by decide, by decide, by decide⟩

/-- C10, as stated, fails for reads: reading "hello" into a buffer that cannot
be written returns `-EFAULT`, yet the head message is gone and `qSize` has
dropped from 5 to 0. -/
theorem copy_fault_counterexample :
    afterHello.q.head = some 1 ∧ afterHello.qSize = 5 ∧
    (device_read afterHello 5 0).map (fun r => (r.1, r.2.1, r.2.2.q.head, r.2.2.qSize)) =
      some (-EFAULT, [], none, 0) := by
  decide

/-- C10 (copy fault), amended. A `device_write` that returns `-EFAULT` leaves all
globals exactly as before.  A `device_read` that returns `-EFAULT` leaves both
limits as before, but it has removed the head node (head moved to its
successor, node freed) and decreased `qSize` by the node's size. -/
theorem copy_fault_state (k k1 : Kernel) :
    (∀ buff len msgAlloc newNode,
      device_write k buff len msgAlloc newNode = some (-EFAULT, k1) → k1 = k) ∧
    (∀ length room bytes, device_read k length room = some (-EFAULT, bytes, k1) →
      k1.maxSize = k.maxSize ∧ k1.maxMsgSize = k.maxMsgSize ∧
      ∃ a nd, k.q.head = some a ∧ k.heap a = some nd ∧ k1.q.head = nd.next ∧
        k1.heap a = none ∧ k1.qSize = k.qSize - nd.size) := by
  constructor
  · intro buff len msgAlloc newNode hw
    have hlen0 : (0 : Int) ≤ len := Int.ofNat_nonneg len
    rcases device_write_cases hw with h | h | h | h | h | h
    · exact h.2.2
    · exact h.2.2.2
    · exact h.2.2.2.2
    · exact h.2.2.2.2.2
    · exact h.2.2.2.2.2.2
    · obtain ⟨-, -, -, -, hr, -⟩ := h
      simp only [EFAULT] at hr; omega
  · intro length room bytes hrd
    obtain ⟨a, nd, h1, h2, h3, h4, h5, h6, h7⟩ := device_read_efault hrd
    exact ⟨h6, h7, a, nd, h1, h2, h3, h4, h5⟩

/-- Instance of C10: a write of five bytes from a caller buffer holding only two
readable bytes faults and changes nothing; a read of "hello" into a buffer that
cannot be written faults and leaves the queue drained. -/
theorem copy_fault_state_witness :
    (device_write afterHello [104, 101] 5 true (some 2) = some (-EFAULT, afterHello) ∧
      afterHello = afterHello) ∧
    (device_read afterHello 5 0 = some (-EFAULT, [], drained) ∧
      drained.maxSize = afterHello.maxSize ∧ drained.maxMsgSize = afterHello.maxMsgSize ∧
      ∃ a nd, afterHello.q.head = some a ∧ afterHello.heap a = some nd ∧
        drained.q.head = nd.next ∧ drained.heap a = none ∧
        drained.qSize = afterHello.qSize - nd.size) :=
  ⟨⟨rfl, (copy_fault_state afterHello afterHello).1 [104, 101] 5 true (some 2) rfl⟩,
    ⟨rfl, (copy_fault_state afterHello drained).2 5 0 [] rfl⟩⟩

/-- C11 (non-blocking empty read). When the queue holds no message (`head` is
`NULL`), `device_read` returns `-EAGAIN` for every requested length, stores
nothing in the caller's buffer and leaves all globals as they were; and whenever
`device_read` returns `-EAGAIN` the queue held no message. -/
theorem empty_read (k : Kernel) (length room : Nat) :
    (k.q.head = none → device_read k length room = some (-EAGAIN, [], k)) ∧
    (∀ bytes k1, device_read k length room = some (-EAGAIN, bytes, k1) →
      k.q.head = none ∧ bytes = [] ∧ k1 = k) := by
  refine ⟨fun h => device_read_nil h length room, ?_⟩
  intro bytes k1 hrd
  rcases device_read_cases hrd with ⟨h1, -, h3, h4⟩ | ⟨a, nd, -, -, -, hret⟩
  · exact ⟨h1, h3, h4⟩
  · exfalso
    have hmin : (0 : Int) ≤ ((min length nd.size : Nat) : Int) := Int.ofNat_nonneg _
    rcases hret with hret | hret
    · simp [EAGAIN, EFAULT] at hret
    · simp only [EAGAIN] at hret; omega

/-- Instance of C11: reading from the drained queue (stale `tail`) and from the
fresh device reports `-EAGAIN`; reading from a queue holding "hello" does not. -/
theorem empty_read_witness :
    drained.q.head = none ∧ device_read drained 7 7 = some (-EAGAIN, [], drained) ∧
    (device_read afterHello 7 7).map Prod.fst = some 5 :=
  ⟨rfl, (empty_read drained 7 7).1 rfl, by decide⟩

/-- C12 (frame of the capacity state). Every `device_read` and `device_write`,
whatever it returns, leaves `maxSize` and `maxMsgSize` as they were; every
control call leaves the node memory, the queue, `qSize` and `maxMsgSize` as
they were; a control call with an opcode other than 0 returns `-EINVAL` and
changes nothing, whatever its parameter; and on a well-shaped queue every call
does return. -/
theorem capacity_frame (k : Kernel) :
    (∀ length room r bytes k1, device_read k length room = some (r, bytes, k1) →
      k1.maxSize = k.maxSize ∧ k1.maxMsgSize = k.maxMsgSize) ∧
    (∀ buff len msgAlloc newNode r k1,
      device_write k buff len msgAlloc newNode = some (r, k1) →
      k1.maxSize = k.maxSize ∧ k1.maxMsgSize = k.maxMsgSize) ∧
    (∀ ioctl_num ioctl_param,
      (device_ioctl k ioctl_num ioctl_param).2.heap = k.heap ∧
      (device_ioctl k ioctl_num ioctl_param).2.q = k.q ∧
      (device_ioctl k ioctl_num ioctl_param).2.qSize = k.qSize ∧
      (device_ioctl k ioctl_num ioctl_param).2.maxMsgSize = k.maxMsgSize) ∧
    (∀ ioctl_num ioctl_param, ioctl_num ≠ 0 →
      device_ioctl k ioctl_num ioctl_param = (-EINVAL, k)) ∧
    (∀ cells, IsQueue k cells → ∀ c, allocFresh k c → ∃ r k1, step k c = some (r, k1)) := by
  refine ⟨?_, ?_, ?_, ?_, fun cells hq c hc => step_total hq c hc⟩
  · intro length room r bytes k1 hrd
    rcases device_read_cases hrd with ⟨-, -, -, h4⟩ | ⟨a, nd, -, -, hk1, -⟩
    · subst h4; exact ⟨rfl, rfl⟩
    · subst hk1; exact ⟨rfl, rfl⟩
  · intro buff len msgAlloc newNode r k1 hw
    rcases device_write_cases hw with h | h | h | h | h | h
    · rw [h.2.2]; exact ⟨rfl, rfl⟩
    · rw [h.2.2.2]; exact ⟨rfl, rfl⟩
    · rw [h.2.2.2.2]; exact ⟨rfl, rfl⟩
    · rw [h.2.2.2.2.2]; exact ⟨rfl, rfl⟩
    · rw [h.2.2.2.2.2.2]; exact ⟨rfl, rfl⟩
    · obtain ⟨-, -, -, -, -, n, -, hpush⟩ := h
      unfold push at hpush
      simp only at hpush
      split at hpush
      · simp at hpush; rw [← hpush]; exact ⟨rfl, rfl⟩
      · split at hpush
        · simp at hpush
        · split at hpush
          · simp at hpush
          · simp at hpush; rw [← hpush]; exact ⟨rfl, rfl⟩
  · intro ioctl_num ioctl_param
    unfold device_ioctl
    split
    · split <;> exact ⟨rfl, rfl, rfl, rfl⟩
    · exact ⟨rfl, rfl, rfl, rfl⟩
  · intro ioctl_num ioctl_param hne
    simp [device_ioctl, hne]

/-- Instance of C12: a read of "hello", a write behind it and an accepted control
call, each compared with the limits before the call; opcode 7 is rejected. -/
theorem capacity_frame_witness :
    (device_read afterHello 5 0 = some (-EFAULT, [], drained) ∧
      drained.maxSize = afterHello.maxSize ∧ drained.maxMsgSize = afterHello.maxMsgSize) ∧
    (device_write afterHello [1, 2, 3] 3 true (some 2) = some (3, afterTwo) ∧
      afterTwo.maxSize = afterHello.maxSize ∧ afterTwo.maxMsgSize = afterHello.maxMsgSize) ∧
    device_ioctl afterHello 7 50 = (-EINVAL, afterHello) ∧
    (IsQueue afterHello [(1, { data := hello, size := 5 })] ∧
      ∃ r k1, step afterHello (.read 3 3) = some (r, k1)) :=
  ⟨⟨rfl, (capacity_frame afterHello).1 5 0 _ _ _ rfl⟩,
    ⟨rfl, (capacity_frame afterHello).2.1 [1, 2, 3] 3 true (some 2) _ _ rfl⟩,
    (capacity_frame afterHello).2.2.2.1 7 50 (by decide),
    ⟨by decide, (capacity_frame afterHello).2.2.2.2 [(1, { data := hello, size := 5 })]
      (by decide) (.read 3 3) trivial⟩⟩

/-- C13 (check and push are not one critical section). With 60 of 100 bytes
queued, two writers of 30 bytes each that both run the statements before `push`
(the capacity check among them) before either calls `push` are both accepted
and leave `qSize = 120 > maxSize = 100`; run one after the other, the second is
rejected with `-EAGAIN` and `qSize` stays at 90. -/
theorem check_then_push_race :
    afterSixty.qSize ≤ afterSixty.maxSize ∧
    (schedule afterSixty
        [.entered thirty 30 true (some 2), .entered thirty 30 true (some 3)]
        [0, 1, 0, 1]).map (fun r => (r.1, r.2.qSize, r.2.maxSize)) =
      some ([.returned 30, .returned 30], 120, 100) ∧
    (schedule afterSixty
        [.entered thirty 30 true (some 2), .entered thirty 30 true (some 3)]
        [0, 0, 1, 1]).map (fun r => (r.1, r.2.qSize, r.2.maxSize)) =
      some ([.returned 30, .returned (-EAGAIN)], 90, 100) := by
  decide

/-- C14 (the linked queue refines a FIFO list). From a queue set up by `init`,
every sequence of `push` and `pop` calls (sound allocator) runs to the end
and hands back exactly what the abstract FIFO list hands back: each `pop`
returns the data and size of the oldest message not yet popped, and `-1`
exactly when there is none.  The final queue is well shaped and holds the
list model's messages; a further `pop` returns `-1` exactly when that list is
empty; and when the queue is empty a `push` sets both `head` and `tail` to
the new node and touches no other node, whatever `tail` held. -/
theorem queue_refines_fifo (k0 : Kernel) (ops : List QOp) (hfresh : freshRun (init k0) ops) :
    ∃ k1 cells1, qrun (init k0) ops = some ((fifoRun [] ops).1, k1) ∧
      IsQueue k1 cells1 ∧ cells1.map Prod.snd = (fifoRun [] ops).2 ∧
      ((pop k1).map (fun r => r.1) = some (-1) ↔ (fifoRun [] ops).2 = []) ∧
      (k1.q.head = none → ∀ n data len, ∃ k2, push k1 (some n) data len = some (0, k2) ∧
        k2.q.head = some n ∧ k2.q.tail = some n ∧ ∀ a, a ≠ n → k2.heap a = k1.heap a) := by
  have hq0 : IsQueue (init k0) [] := ⟨rfl, by simp⟩
  obtain ⟨k1, cells1, hrun, hq1, hmap⟩ := qrun_refines hq0 ops hfresh
  rw [List.map_nil] at hrun hmap
  refine ⟨k1, cells1, hrun, hq1, hmap, ?_, fun h n data len => push_on_empty h n data len⟩
  rw [← hmap]
  cases cells1 with
  | nil => simp [pop_nil hq1.1]
  | cons c rest =>
    obtain ⟨k2, hpop, -⟩ := pop_cons hq1
    simp [hpop]

/-- Instance of C14: push "hello", pop it, push `1, 2, 3` into a node allocated
at the address just freed (the one the stale `tail` still holds), pop it, and
pop once more on the empty queue. -/
theorem queue_refines_fifo_witness :
    freshRun (init (initial 100 10))
      [.push (some 1) hello 5, .pop, .push (some 1) [1, 2, 3] 3, .pop, .pop] ∧
    (qrun (init (initial 100 10))
      [.push (some 1) hello 5, .pop, .push (some 1) [1, 2, 3] 3, .pop, .pop]).map Prod.fst =
      some [(0, none), (0, some (hello, 5)), (0, none), (0, some ([1, 2, 3], 3)), (-1, none)] ∧
    ∃ k1 cells1,
      qrun (init (initial 100 10))
          [.push (some 1) hello 5, .pop, .push (some 1) [1, 2, 3] 3, .pop, .pop] =
        some ((fifoRun []
          [.push (some 1) hello 5, .pop, .push (some 1) [1, 2, 3] 3, .pop, .pop]).1, k1) ∧
      IsQueue k1 cells1 ∧
      cells1.map Prod.snd =
        (fifoRun [] [.push (some 1) hello 5, .pop, .push (some 1) [1, 2, 3] 3, .pop, .pop]).2 ∧
      ((pop k1).map (fun r => r.1) = some (-1) ↔
        (fifoRun [] [.push (some 1) hello 5, .pop, .push (some 1) [1, 2, 3] 3, .pop, .pop]).2
          = []) ∧
      (k1.q.head = none → ∀ n data len, ∃ k2, push k1 (some n) data len = some (0, k2) ∧
        k2.q.head = some n ∧ k2.q.tail = some n ∧ ∀ a, a ≠ n → k2.heap a = k1.heap a) :=
  have hfresh : freshRun (init (initial 100 10))
      [.push (some 1) hello 5, .pop, .push (some 1) [1, 2, 3] 3, .pop, .pop] :=
    ⟨rfl, trivial, rfl, trivial, trivial, trivial⟩
  ⟨hfresh, by decide, queue_refines_fifo (initial 100 10) _ hfresh⟩

/-- C15 (redundant disjunct). In every reachable state an opcode-0 control call is
accepted exactly when `ioctl_param > qSize`: a parameter above `maxSize` is
above `qSize` as well, every parameter above `qSize` becomes the new cap, and
the parameter equal to `qSize` is rejected. -/
theorem redundant_disjunct (maxSize0 maxMsgSize0 : Nat) (k : Kernel)
    (h : Reachable maxSize0 maxMsgSize0 k) (p : Nat) :
    ((device_ioctl k 0 p).1 = 0 ↔ (p : Int) > k.qSize) ∧
    (p > k.maxSize → (p : Int) > k.qSize) ∧
    ((p : Int) > k.qSize → device_ioctl k 0 p = (0, { k with maxSize := p })) ∧
    ((p : Int) = k.qSize → device_ioctl k 0 p = (-EINVAL, k)) := by
  obtain ⟨cells, hinv⟩ := inv_reachable h
  have hcap : k.qSize ≤ k.maxSize := hinv.2.2.2
  have himp : p > k.maxSize → (p : Int) > k.qSize := by
    intro hp
    have : (k.maxSize : Int) < p := by exact_mod_cast hp
    omega
  refine ⟨?_, himp, ?_, ?_⟩
  · by_cases hq : (p : Int) > k.qSize
    · simp [device_ioctl, hq]
    · have hm : ¬ p > k.maxSize := fun hp => hq (himp hp)
      simp [device_ioctl, hq, hm, EINVAL]
  · intro hq
    simp [device_ioctl, hq]
  · intro hq
    have hq1 : ¬ (p : Int) > k.qSize := by omega
    have hm : ¬ p > k.maxSize := fun hp => hq1 (himp hp)
    simp only [device_ioctl, if_true, hq1, hm, or_self, if_false]

/-- Instance of C15 with 5 bytes queued: the parameter 6 is accepted, the
parameter 5 is rejected. -/
theorem redundant_disjunct_witness :
    Reachable 100 10 afterHello ∧
    (device_ioctl afterHello 0 6).1 = 0 ∧ (device_ioctl afterHello 0 6).2.maxSize = 6 ∧
    device_ioctl afterHello 0 5 = (-EINVAL, afterHello) :=
  have hr : Reachable 100 10 afterHello :=
    Reachable.call (initial 100 10) (.write hello 5 true (some 1)) 5 afterHello
      Reachable.start rfl rfl
  ⟨hr, ((redundant_disjunct 100 10 afterHello hr 6).1).2 (by decide), by decide,
    (redundant_disjunct 100 10 afterHello hr 5).2.2.2 (by decide)⟩

/-- C16, as stated, fails: an 11-byte write from an unreadable caller buffer
against `maxMsgSize = 10` returns `-EINVAL`, not `-EFAULT`; the size check comes
before the copy. -/
theorem copy_after_checks_counterexample :
    copy_from_user [] 11 ≠ 0 ∧
    device_write (initial 100 10) [] 11 true (some 1) = some (-EINVAL, initial 100 10) ∧
    ¬ ∃ k1, device_write (initial 100 10) [] 11 true (some 1) = some (-EFAULT, k1) := by
  refine ⟨by decide, rfl, ?_⟩
  rintro ⟨k1, h⟩
  have h1 : device_write (initial 100 10) [] 11 true (some 1) =
      some (-EINVAL, initial 100 10) := rfl
  rw [h1] at h
  simp [EINVAL, EFAULT] at h

/-- C16 (place of the copy-in), amended. A write whose copy-in would fault returns
`-1` when the payload allocation failed, else `-EINVAL` when `len > maxMsgSize`,
else `-EAGAIN` when `qSize + len > maxSize`, and `-EFAULT` only when all three
tests were passed; in every case all globals are exactly as before. -/
theorem copy_after_checks (k : Kernel) (buff : List Byte) (len : Nat) (msgAlloc : Bool)
    (newNode : Option Addr) (hfault : copy_from_user buff len ≠ 0) :
    device_write k buff len msgAlloc newNode =
      some (if msgAlloc = false then -1
            else if len > k.maxMsgSize then -EINVAL
            else if k.qSize + len > k.maxSize then -EAGAIN
            else -EFAULT, k) := by
  unfold device_write
  by_cases h1 : msgAlloc = false
  · simp [h1]
  have h1t : msgAlloc = true := by simpa using h1
  by_cases h2 : len > k.maxMsgSize
  · simp [h1t, h2]
  by_cases h3 : k.qSize + len > k.maxSize
  · simp [h1t, h2, h3]
  simp [h1t, h2, h3, hfault]

/-- Instance of C16: five bytes asked from a caller buffer with two readable
bytes, within both limits: the write faults and changes nothing. -/
theorem copy_after_checks_witness :
    copy_from_user [104, 101] 5 ≠ 0 ∧
    device_write afterHello [104, 101] 5 true (some 2) = some (-EFAULT, afterHello) :=
  ⟨by decide, copy_after_checks afterHello [104, 101] 5 true (some 2) (by decide)⟩

/-- C17 (status of a failed node allocation). When `kmalloc` fails inside `push`,
`push` returns `-1` and changes nothing, and `device_write` returns `-EFAULT`:
the value it returns on a copy fault, and not the `-1` it returns when the
payload allocation fails. -/
theorem node_alloc_failure_status :
    push afterHello none hello 5 = some (-1, afterHello) ∧
    device_write afterHello hello 5 true none = some (-EFAULT, afterHello) ∧
    device_write afterHello [] 5 true (some 2) = some (-EFAULT, afterHello) ∧
    device_write afterHello hello 5 false none = some (-1, afterHello) ∧
    (-EFAULT : Int) ≠ -1 :=
  ⟨rfl, rfl, rfl, rfl, by decide⟩

/-- C18, as stated, fails: with 5 bytes queued and `maxSize = 100`, the
parameter 3 (below the cap and below the backlog) is rejected with `-EINVAL`
and the cap stays at 100. -/
theorem shrink_policy_counterexample :
    3 < afterHello.maxSize ∧ afterHello.qSize > (3 : Nat) ∧
    device_ioctl afterHello 0 3 = (-EINVAL, afterHello) ∧
    (device_ioctl afterHello 0 3).1 ≠ 0 ∧ (device_ioctl afterHello 0 3).2.maxSize = 100 :=
  ⟨by decide, by decide, rfl, by decide, by decide⟩

/-- C18 (shrinking the cap), amended. For a parameter below the current cap, an
opcode-0 control call is accepted exactly when the parameter exceeds `qSize`,
and then lowers `maxSize` to it; when `qSize` is at least the parameter the
call returns `-EINVAL` and changes nothing. -/
theorem shrink_policy (k : Kernel) (p : Nat) (hlow : p < k.maxSize) :
    ((device_ioctl k 0 p).1 = 0 ↔ (p : Int) > k.qSize) ∧
    ((p : Int) > k.qSize → device_ioctl k 0 p = (0, { k with maxSize := p })) ∧
    (k.qSize ≥ p → device_ioctl k 0 p = (-EINVAL, k)) := by
  have hm : ¬ p > k.maxSize := by omega
  refine ⟨?_, ?_, ?_⟩
  · by_cases hq : (p : Int) > k.qSize
    · simp [device_ioctl, hq]
    · simp [device_ioctl, hq, hm, EINVAL]
  · intro hq
    simp [device_ioctl, hq]
  · intro hq
    have hq1 : ¬ (p : Int) > k.qSize := by omega
    simp only [device_ioctl, if_true, hq1, hm, or_self, if_false]

/-- Instance of C18 with 5 bytes queued and `maxSize = 100`: the parameter 50
lowers the cap to 50, the parameter 3 is rejected. -/
theorem shrink_policy_witness :
    50 < afterHello.maxSize ∧ 3 < afterHello.maxSize ∧
    device_ioctl afterHello 0 50 = (0, { afterHello with maxSize := 50 }) ∧
    device_ioctl afterHello 0 3 = (-EINVAL, afterHello) :=
  ⟨by decide, by decide, (shrink_policy afterHello 50 (by decide)).2.1 (by decide),
    (shrink_policy afterHello 3 (by decide)).2.2 (by decide)⟩

/-- C19 (zero-length messages). In every reachable state a write with `len = 0`
that gets its memory returns 0 and appends an empty message while `qSize`
stays as it was, so the queue is not empty afterwards even when `qSize` is 0
(whereas an empty queue always has `qSize = 0`); and once the messages queued
before it have been read, the next read returns 0 with no bytes, not
`-EAGAIN`. -/
theorem zero_length_messages (maxSize0 maxMsgSize0 : Nat) (k : Kernel)
    (h : Reachable maxSize0 maxMsgSize0 k) (buff : List Byte) (n : Addr)
    (hn : k.heap n = none) :
    ∃ cells k1, IsQueue k cells ∧
      device_write k buff 0 true (some n) = some (0, k1) ∧
      IsQueue k1 (cells ++ [(n, { data := [], size := 0 })]) ∧
      k1.qSize = k.qSize ∧ k1.q.head ≠ none ∧
      (k.q.head = none → k.qSize = 0) ∧
      ∀ rs, List.Forall₂ (fun (m : Msg) (r : Nat × Nat) => m.size ≤ r.1 ∧ m.size ≤ r.2)
          (cells.map Prod.snd) rs →
        ∀ length room, ∃ k2, reads k1 (rs ++ [(length, room)]) =
          some ((cells.map Prod.snd).map (fun m => ((m.size : Int), m.data.take m.size)) ++
            [(0, [])], k2) := by
  obtain ⟨cells, hq, -, hsz, hcap⟩ := inv_reachable h
  have hcap0 : k.qSize + ((0 : Nat) : Int) ≤ k.maxSize := by simpa using hcap
  obtain ⟨k1, hw, hq1, hs1, -, -⟩ :=
    @device_write_accept k cells hq buff 0 n (Nat.zero_le _) hcap0 (Nat.zero_le _) hn
  rw [List.take_zero] at hq1
  refine ⟨cells, k1, hq, by simpa using hw, hq1, by simpa using hs1, ?_, ?_, ?_⟩
  · cases cells with
    | nil =>
      have := hq1.1.1
      simp [this]
    | cons c rest =>
      have := hq1.1.1
      simp [this]
  · intro hhead
    cases cells with
    | nil => rw [hsz]; rfl
    | cons c rest =>
      have := hq.1.1
      simp [hhead] at this
  · intro rs hrs length room
    have hall : List.Forall₂ (fun (m : Msg) (r : Nat × Nat) => m.size ≤ r.1 ∧ m.size ≤ r.2)
        ((cells ++ [(n, ({ data := [], size := 0 } : Msg))]).map Prod.snd)
        (rs ++ [(length, room)]) := by
      rw [List.map_append]
      exact List.rel_append hrs
        (List.Forall₂.cons ⟨Nat.zero_le _, Nat.zero_le _⟩ List.Forall₂.nil)
    obtain ⟨k2, hreads, -⟩ := reads_all hq1 hall
    exact ⟨k2, by simpa using hreads⟩

/-- Instance of C19: an empty message written to the fresh device leaves
`qSize = 0` with a node linked from `head`, and the next read returns 0. -/
theorem zero_length_messages_witness :
    Reachable 100 10 (initial 100 10) ∧ (initial 100 10).heap 1 = none ∧
    device_write (initial 100 10) [] 0 true (some 1) = some (0, afterEmptyMsg) ∧
    afterEmptyMsg.qSize = 0 ∧ afterEmptyMsg.q.head = some 1 ∧
    (device_read afterEmptyMsg 4 4).map (fun r => (r.1, r.2.1)) = some (0, []) ∧
    ∃ cells k1, IsQueue (initial 100 10) cells ∧
      device_write (initial 100 10) [] 0 true (some 1) = some (0, k1) ∧
      IsQueue k1 (cells ++ [(1, { data := [], size := 0 })]) ∧
      k1.qSize = (initial 100 10).qSize ∧ k1.q.head ≠ none ∧
      ((initial 100 10).q.head = none → (initial 100 10).qSize = 0) ∧
      ∀ rs, List.Forall₂ (fun (m : Msg) (r : Nat × Nat) => m.size ≤ r.1 ∧ m.size ≤ r.2)
          (cells.map Prod.snd) rs →
        ∀ length room, ∃ k2, reads k1 (rs ++ [(length, room)]) =
          some ((cells.map Prod.snd).map (fun m => ((m.size : Int), m.data.take m.size)) ++
            [(0, [])], k2) :=
  ⟨Reachable.start, rfl, rfl, rfl, rfl, by decide,
    zero_length_messages 100 10 (initial 100 10) Reachable.start [] 1 rfl⟩

end CharDev
